import Mathlib

/-! Decoder of encoded file names (`lib/encoder/filename/decode.go`).

A shallow embedding of `Decode` and `DecodeBytes` together with the two
standard-library routines they call (`binary.Uvarint` and
`base64.URLEncoding.Decode`), and theorems about them.

Conventions.
* A Go `byte` is a `Fin 256`; a Go `string` or `[]byte` is a `List Byte`.
* A `uint64` is a natural number kept below `2 ^ 64` by an explicit `%`.
* The package-level tables and constants that `decode.go` uses but does not
  declare (`tableUncompressed`, ..., `maxLength`, `decodeMap`, `decTables`) and
  the borrowed codecs (`scsu.Decode`, `huff0.ReadTable`, `Decompress1X`) are the
  fields of an environment `Env`.
* The package-level variables `customDec` and `customDecMu` are the explicit
  state `State`, threaded through `DecodeBytes`.
-/

set_option maxRecDepth 8000

namespace Filename

/-- A Go `byte`. -/
abbrev Byte := Fin 256

/-- The error values `DecodeBytes` can hand back: the two declared in
`decode.go`, and an error value of package `scsu` (numbered by `code`), which is
a different value from both. -/
inductive DecodeError where
  | ErrCorrupted
  | ErrUnsupported
  | scsu (code : Nat)
  deriving DecidableEq, Repr

/-- What a call produces: the Go result pair `(string, error)` with `err = none`
for a `nil` error, or a run-time panic. -/
inductive Outcome where
  | ret (name : List Byte) (err : Option DecodeError)
  | panic
  deriving DecidableEq, Repr

/-- The type `huff0.Scratch` as far as `decode.go` touches it: the exported field
`MaxDecodedSize` and the rest of the decoder state (the parsed table). -/
structure Scratch (σ : Type) where
  MaxDecodedSize : Nat
  dt : σ
  deriving DecidableEq

/-- The package-level variables `customDec` and `customDecMu`; `customDecMu` is
`true` while the mutex is held. -/
structure State (σ : Type) where
  customDec : Scratch σ
  customDecMu : Bool
  deriving DecidableEq

/-- Everything `decode.go` uses without declaring it. `σ` is the internal state
of a `huff0.Scratch`, `δ` the type `huff0.Decoder`. Errors of the borrowed
codecs are numbered by a natural number. -/
structure Env (σ δ : Type) where
  tableUncompressed : Byte
  tableReserved : Byte
  tableSCSUPlain : Byte
  tableRLE : Byte
  tableCustom : Byte
  tableSCSU : Byte
  maxLength : Nat
  decodeMap : Byte → Byte
  decTables : List (Option δ)
  /-- The function `scsu.Decode(b) (string, error)`. -/
  scsuDecode : List Byte → List Byte × Option Nat
  /-- The function `huff0.ReadTable(in, s) (s2, remain, err)`: the scratch after
  the call, and the remaining bytes or an error. -/
  readTable : List Byte → Scratch σ → Scratch σ × Except Nat (List Byte)
  /-- The method `(*Scratch).Decompress1X(in) (out, err)`. -/
  scratchDecompress1X : Scratch σ → List Byte → Scratch σ × Except Nat (List Byte)
  /-- The method `(*Decoder).Decompress1X(dst, src) (out, err)` called with an
  empty `dst` of the given capacity. -/
  decoderDecompress1X : δ → Nat → List Byte → Except Nat (List Byte)

/-- The table ids with a `case` of their own in the `switch` of `DecodeBytes`. -/
def Env.sentinels {σ δ : Type} (E : Env σ δ) : List Byte :=
  [E.tableUncompressed, E.tableReserved, E.tableSCSUPlain, E.tableRLE, E.tableCustom]

/-- What the Go compiler demands of the missing constants for `decode.go` to
compile: the five `case` constants of the `switch` are pairwise different, and
`maxLength` is an array length, hence a non-negative `int`. -/
def Env.WellFormed {σ δ : Type} (E : Env σ δ) : Prop :=
  E.sentinels.Nodup ∧ E.maxLength < 2 ^ 63

/-! ## `encoding/binary`: `Uvarint` and `PutUvarint` -/

/-- The constant `binary.MaxVarintLen64`. -/
def MaxVarintLen64 : Nat := 10

/-- The loop of `binary.Uvarint` at index `i` with accumulator `x` and shift
`s`, over the bytes not yet read. The result is the pair `(value, n)` of the Go
function: `n = 0` for an unterminated buffer, `n < 0` for an overflow. -/
def uvarintLoop : List Byte → Nat → Nat → Nat → Nat × Int
  | [], _, _, _ => (0, 0)
  | b :: rest, i, x, s =>
    if i = MaxVarintLen64 then (0, -((i : Int) + 1))
    else if b.val < 0x80 then
      if i = MaxVarintLen64 - 1 ∧ b.val > 1 then (0, -((i : Int) + 1))
      else (x ||| (b.val <<< s) % 2 ^ 64, (i : Int) + 1)
    else uvarintLoop rest (i + 1) (x ||| ((b.val &&& 0x7f) <<< s) % 2 ^ 64) (s + 7)

/-- The function `binary.Uvarint(buf) (uint64, int)`. -/
def Uvarint (buf : List Byte) : Nat × Int :=
  uvarintLoop buf 0 0 0

/-- The loop of `binary.PutUvarint`: one byte per seven bits, low bits first,
the top bit set on every byte but the last. A `uint64` needs at most
`MaxVarintLen64` rounds, which is the fuel `varint` gives it. -/
def putUvarintLoop : Nat → Nat → List Byte
  | 0, _ => []
  | fuel + 1, x =>
    if x ≥ 0x80 then
      Fin.ofNat ((x % 256) ||| 0x80) :: putUvarintLoop fuel (x >>> 7)
    else [Fin.ofNat x]

/-- The bytes `binary.PutUvarint` writes for the `uint64` value `n`. -/
def varint (n : Nat) : List Byte :=
  putUvarintLoop MaxVarintLen64 (n % 2 ^ 64)

/-! ## `bytes` and conversions -/

/-- The conversion `int(n)` of a `uint64` to a 64-bit `int`. -/
def uint64ToInt (n : Nat) : Int :=
  if n % 2 ^ 64 < 2 ^ 63 then ((n % 2 ^ 64 : Nat) : Int)
  else ((n % 2 ^ 64 : Nat) : Int) - 2 ^ 64

/-- The function `bytes.Repeat(b, count)`; `none` is its panic on a negative
count. -/
def bytesRepeat (b : List Byte) (count : Int) : Option (List Byte) :=
  if count < 0 then none else some (List.replicate count.toNat b).flatten

/-- The slice expression `data[lo:hi]`; `none` is the out-of-range panic. -/
def slice (data : List Byte) (lo hi : Int) : Option (List Byte) :=
  if 0 ≤ lo ∧ lo ≤ hi ∧ hi ≤ (data.length : Int) then
    some ((data.take hi.toNat).drop lo.toNat)
  else none

/-! ## `DecodeBytes` -/

/-- The result pair of `scsu.Decode` as the result pair of the caller that
returns it unchanged. -/
def ofScsu (r : List Byte × Option Nat) : Outcome :=
  .ret r.1 (r.2.map DecodeError.scsu)

/-- The `case tableRLE` body of `DecodeBytes`. -/
def decodeRLE (maxLength : Nat) (data : List Byte) : Outcome :=
  if (data.length : Int) < 2 then .ret [] (some .ErrCorrupted)
  else
    match slice data 0 ((data.length : Int) - 1) with
    | none => .panic
    | some head =>
      let r := Uvarint head
      if r.2 ≤ 0 ∨ r.1 > maxLength then .ret [] (some .ErrCorrupted)
      else
        match slice data ((data.length : Int) - 1) (data.length : Int) with
        | none => .panic
        | some last =>
          match bytesRepeat last (uint64ToInt r.1) with
          | none => .panic
          | some name => .ret name none

/-- The `case tableCustom` body of `DecodeBytes` between `Lock` and the deferred
`Unlock`: the result and the scratch decoder it leaves behind. -/
def decodeCustom {σ δ : Type} (E : Env σ δ) (customDec : Scratch σ) (data : List Byte) :
    Outcome × Scratch σ :=
  match E.readTable data customDec with
  | (dec, .error _) => (.ret [] (some .ErrCorrupted), dec)
  | (dec, .ok data) =>
    let dec := { dec with MaxDecodedSize := E.maxLength }
    match E.scratchDecompress1X dec data with
    | (dec, .error _) => (.ret [] (some .ErrCorrupted), dec)
    | (dec, .ok decoded) => (.ret decoded none, dec)

/-- The `default` body of `DecodeBytes`. -/
def decodeStatic {σ δ : Type} (E : Env σ δ) (table : Byte) (data : List Byte) : Outcome :=
  if table.val ≥ E.decTables.length % 256 then .ret [] (some .ErrCorrupted)
  else
    match E.decTables.get? table.val with
    | none => .panic
    | some none => .ret [] (some .ErrUnsupported)
    | some (some dec) =>
      match E.decoderDecompress1X dec E.maxLength data with
      | .error _ => .ret [] (some .ErrCorrupted)
      | .ok name =>
        if table = E.tableSCSU then ofScsu (E.scsuDecode name)
        else .ret name none

/-- The function `DecodeBytes(table, data)` run in state `st`. The result is
`none` when the call never returns because `customDecMu.Lock()` finds the mutex
held; otherwise the outcome and the state after the call. -/
def DecodeBytes {σ δ : Type} (E : Env σ δ) (st : State σ) (table : Byte) (data : List Byte) :
    Option (Outcome × State σ) :=
  if table = E.tableUncompressed then some (.ret data none, st)
  else if table = E.tableReserved then some (.ret [] (some .ErrUnsupported), st)
  else if table = E.tableSCSUPlain then some (ofScsu (E.scsuDecode data), st)
  else if table = E.tableRLE then some (decodeRLE E.maxLength data, st)
  else if table = E.tableCustom then
    if st.customDecMu then none
    else
      let locked : State σ := { st with customDecMu := true }
      let r := decodeCustom E locked.customDec data
      some (r.1, { customDec := r.2, customDecMu := false })
  else some (decodeStatic E table data, st)

/-! ## `encoding/base64`: `URLEncoding` -/

/-- The alphabet of `base64.URLEncoding`
(`A`..`Z`, `a`..`z`, `0`..`9`, `-`, `_`), as byte values. -/
def encodeURL : List Byte :=
  [65, 66, 67, 68, 69, 70, 71, 72, 73, 74, 75, 76, 77, 78, 79, 80, 81, 82, 83, 84, 85, 86,
   87, 88, 89, 90, 97, 98, 99, 100, 101, 102, 103, 104, 105, 106, 107, 108, 109, 110, 111,
   112, 113, 114, 115, 116, 117, 118, 119, 120, 121, 122, 48, 49, 50, 51, 52, 53, 54, 55,
   56, 57, 45, 95]

/-- The padding character `=` of `base64.URLEncoding` (`StdPadding`). -/
def padChar : Byte := 61

/-- The field `enc.encode`: the character of a six-bit value. -/
def urlEncode (v : Nat) : Byte :=
  encodeURL.getD v 0

/-- The field `enc.decodeMap` as `base64.NewEncoding` builds it: `0xff`
everywhere, then `decodeMap[encoder[i]] = i` for `i = 0, 1, ..., 63`. -/
def urlDecodeMap : Byte → Byte :=
  encodeURL.enum.foldl (fun m p => fun c => if c = p.2 then Fin.ofNat p.1 else m c)
    (fun _ => 0xff)

/-- The result of `decodeQuantum`: the source bytes not yet read (`src[nsi:]`),
the bytes written to `dst` (`dst[:n]`), and whether `err` is a
`CorruptInputError`. -/
structure Quantum where
  rest : List Byte
  out : List Byte
  err : Bool
  deriving DecidableEq, Repr

/-- The loops `for si < len(src) && (src[si] == '\n' || src[si] == '\r')` of
`decodeQuantum`. -/
def skipNewlines : List Byte → List Byte
  | [] => []
  | c :: rest => if c = 10 ∨ c = 13 then skipNewlines rest else c :: rest

/-- The tail of `decodeQuantum`: four six-bit values to three bytes, of which
the first `dlen - 1` are written. -/
def quantumBytes (dbuf : List Byte) (dlen : Nat) : List Byte :=
  let val := (dbuf.getD 0 0).val <<< 18 ||| (dbuf.getD 1 0).val <<< 12 |||
    (dbuf.getD 2 0).val <<< 6 ||| (dbuf.getD 3 0).val
  ([Fin.ofNat (val >>> 16), Fin.ofNat (val >>> 8), Fin.ofNat (val >>> 0)] : List Byte).take
    (dlen - 1)

/-- The `for j := 0; j < len(dbuf); j++` loop of `decodeQuantum` for an encoding
with padding that is not strict, at position `j` with the buffer `dbuf`, over the
source bytes not yet read. -/
def decodeQuantumLoop : List Byte → Nat → List Byte → Quantum
  | [], j, _ =>
    -- `len(src) == si`: fine before a quantum starts, corrupt inside one
    if j = 0 then ⟨[], [], false⟩ else ⟨[], [], true⟩
  | c :: rest, j, dbuf =>
    let out := urlDecodeMap c
    if out ≠ 0xff then
      let dbuf := dbuf.set j out
      if j + 1 < 4 then decodeQuantumLoop rest (j + 1) dbuf
      else ⟨rest, quantumBytes dbuf 4, false⟩
    else if c = 10 ∨ c = 13 then decodeQuantumLoop rest j dbuf
    else if c ≠ padChar then ⟨rest, [], true⟩
    else if j = 0 ∨ j = 1 then ⟨rest, [], true⟩
    else if j = 2 then
      -- `==` is expected, the first `=` is already consumed
      match skipNewlines rest with
      | [] => ⟨[], [], true⟩
      | c2 :: rest2 =>
        if c2 ≠ padChar then ⟨c2 :: rest2, [], true⟩
        else
          let rest3 := skipNewlines rest2
          ⟨rest3, quantumBytes dbuf j, !rest3.isEmpty⟩
    else
      let rest3 := skipNewlines rest
      ⟨rest3, quantumBytes dbuf j, !rest3.isEmpty⟩

/-- The function `decodeQuantum` of `base64.URLEncoding`. -/
def decodeQuantum (src : List Byte) : Quantum :=
  decodeQuantumLoop src 0 [0, 0, 0, 0]

/-- The loop `for si < len(src)` of `(*Encoding).Decode`, with the bytes written
so far: `none` only when the fuel runs out, which `base64Decode` excludes. The
eight- and four-character fast paths of the library write what `decodeQuantum`
writes for the same characters and are not modelled apart. -/
def base64DecodeLoop : Nat → List Byte → List Byte → Option (List Byte × Bool)
  | _, [], dst => some (dst, false)
  | 0, _ :: _, _ => none
  | fuel + 1, c :: rest, dst =>
    let q := decodeQuantum (c :: rest)
    if q.err then some (dst ++ q.out, true)
    else base64DecodeLoop fuel q.rest (dst ++ q.out)

/-- The call `n, err := base64.URLEncoding.Decode(data, src)` followed by
`data[:n]`: the decoded bytes and whether `err` is non-nil. Every round of the
loop reads at least one byte, so `len(src)` rounds are enough. -/
def base64Decode (src : List Byte) : List Byte × Bool :=
  (base64DecodeLoop src.length src []).getD ([], true)

/-- The method `(*Encoding).Encode` of `base64.URLEncoding` (with padding) when
`pad` is true, and of the same alphabet without padding (`RawURLEncoding`)
when it is false. -/
def base64Encode (pad : Bool) : List Byte → List Byte
  | [] => []
  | [a] =>
    let val := a.val <<< 16
    [urlEncode (val >>> 18 &&& 0x3F), urlEncode (val >>> 12 &&& 0x3F)] ++
      (if pad then [padChar, padChar] else [])
  | [a, b] =>
    let val := a.val <<< 16 ||| b.val <<< 8
    [urlEncode (val >>> 18 &&& 0x3F), urlEncode (val >>> 12 &&& 0x3F),
      urlEncode (val >>> 6 &&& 0x3F)] ++ (if pad then [padChar] else [])
  | a :: b :: c :: rest =>
    let val := a.val <<< 16 ||| b.val <<< 8 ||| c.val
    urlEncode (val >>> 18 &&& 0x3F) :: urlEncode (val >>> 12 &&& 0x3F) ::
      urlEncode (val >>> 6 &&& 0x3F) :: urlEncode (val &&& 0x3F) :: base64Encode pad rest

/-! ## `Decode` -/

/-- The function `Decode(s)` run in state `st`; the result is read as for
`DecodeBytes`. -/
def Decode {σ δ : Type} (E : Env σ δ) (st : State σ) (s : List Byte) :
    Option (Outcome × State σ) :=
  if s.length < 1 then some (.ret [] (some .ErrCorrupted), st)
  else
    match s.get? 0 with
    | none => some (.panic, st)
    | some c =>
      let table := E.decodeMap c
      if table = 0 then some (.ret [] (some .ErrCorrupted), st)
      else
        let table : Byte := table - 1
        match slice s 1 s.length with
        | none => some (.panic, st)
        | some s =>
          let r := base64Decode s
          if r.2 ∨ (r.1.length : Int) < 0 then some (.ret [] (some .ErrCorrupted), st)
          else DecodeBytes E st table r.1

/-! ## Concurrent callers of the custom-table case -/

/-- Where a caller of `DecodeBytes(tableCustom, payload)` stands, one step per
statement of the case: before `customDecMu.Lock()`; holding the mutex before
`huff0.ReadTable`; before `customDec.MaxDecodedSize = maxLength`, with the
bytes `ReadTable` left; before `customDec.Decompress1X(data)`; with the result
fixed, before the deferred `customDecMu.Unlock()`; returned. -/
inductive Pc where
  | start
  | locked
  | parsed (body : List Byte)
  | sized (body : List Byte)
  | returning (r : Outcome)
  | done (r : Outcome)
  deriving DecidableEq, Repr

/-- Whether a caller is between `Lock` and `Unlock`. -/
def Pc.inside : Pc → Bool
  | .start => false
  | .locked => true
  | .parsed _ => true
  | .sized _ => true
  | .returning _ => true
  | .done _ => false

/-- A goroutine inside `DecodeBytes(tableCustom, payload)`. -/
structure Caller where
  payload : List Byte
  pc : Pc
  deriving DecidableEq, Repr

/-- The shared variables `customDec` and `customDecMu`, and the callers. -/
structure System (σ : Type) where
  customDec : Scratch σ
  customDecMu : Bool
  callers : List Caller

/-- One statement of the custom-table case run by one caller on the shared
variables: the variables and the caller after it, or `none` when the caller
cannot move (it waits in `Lock` for a held mutex, or it has returned). -/
def stepCaller {σ δ : Type} (E : Env σ δ) (customDec : Scratch σ) (customDecMu : Bool)
    (c : Caller) : Option (Scratch σ × Bool × Caller) :=
  match c.pc with
  | .start =>
    if customDecMu then none else some (customDec, true, { c with pc := .locked })
  | .locked =>
    match E.readTable c.payload customDec with
    | (dec, .error _) =>
      some (dec, customDecMu, { c with pc := .returning (.ret [] (some .ErrCorrupted)) })
    | (dec, .ok body) => some (dec, customDecMu, { c with pc := .parsed body })
  | .parsed body =>
    some ({ customDec with MaxDecodedSize := E.maxLength }, customDecMu,
      { c with pc := .sized body })
  | .sized body =>
    match E.scratchDecompress1X customDec body with
    | (dec, .error _) =>
      some (dec, customDecMu, { c with pc := .returning (.ret [] (some .ErrCorrupted)) })
    | (dec, .ok decoded) =>
      some (dec, customDecMu, { c with pc := .returning (.ret decoded none) })
  | .returning r => some (customDec, false, { c with pc := .done r })
  | .done _ => none

/-- The step of caller number `i`, if there is such a caller and it can move. -/
def step {σ δ : Type} (E : Env σ δ) (s : System σ) (i : Nat) : Option (System σ) :=
  match s.callers.get? i with
  | none => none
  | some c =>
    match stepCaller E s.customDec s.customDecMu c with
    | none => none
    | some (dec, mu, c') => some { customDec := dec, customDecMu := mu, callers := s.callers.set i c' }

/-- An interleaving: the callers named by the schedule take one step each, in
that order; a caller that cannot move when it is named is passed over. -/
def run {σ δ : Type} (E : Env σ δ) : System σ → List Nat → System σ
  | s, [] => s
  | s, i :: rest =>
    match step E s i with
    | none => run E s rest
    | some s' => run E s' rest

/-- The callers before any of them has taken a step, the mutex free. -/
def initial {σ : Type} (customDec : Scratch σ) (payloads : List (List Byte)) : System σ :=
  { customDec := customDec, customDecMu := false,
    callers := payloads.map (fun p => { payload := p, pc := .start }) }

/-- What is known of a caller at each statement, in terms of the shared scratch
decoder: the scratch holds the table of the caller's own payload from `ReadTable`
on, and the result is that of `decodeCustom` on the caller's own payload. -/
def CallerOk {σ δ : Type} (E : Env σ δ) (customDec : Scratch σ) (c : Caller) : Prop :=
  match c.pc with
  | .start => True
  | .locked => True
  | .parsed body => ∃ d0, E.readTable c.payload d0 = (customDec, .ok body)
  | .sized body =>
    ∃ d0 dec, E.readTable c.payload d0 = (dec, .ok body) ∧
      customDec = { dec with MaxDecodedSize := E.maxLength }
  | .returning r => ∃ d0, decodeCustom E d0 c.payload = (r, customDec)
  | .done r => ∃ d0, (decodeCustom E d0 c.payload).1 = r

/-- The invariant of the interleavings: the callers keep their payloads, each
is as `CallerOk` says, nobody is between `Lock` and `Unlock` while the mutex is
free, and exactly one caller is while it is held. -/
structure Inv {σ δ : Type} (E : Env σ δ) (payloads : List (List Byte)) (s : System σ) :
    Prop where
  payloads_eq : s.callers.map Caller.payload = payloads
  ok : ∀ i c, s.callers.get? i = some c → CallerOk E s.customDec c
  free : s.customDecMu = false → ∀ i c, s.callers.get? i = some c → c.pc.inside = false
  held : s.customDecMu = true →
    ∃ i c, s.callers.get? i = some c ∧ c.pc.inside = true ∧
      ∀ j cj, s.callers.get? j = some cj → cj.pc.inside = true → j = i

/-! ## The operations that can go out of range or wrap around -/

/-- An operation of `Decode` or `DecodeBytes` that Go checks at run time, or
that can wrap around, with its operands: the index expression `a[i]` on an `a`
of length `len`; the slice expression `a[lo:hi]` on an `a` of length `len`; the
decrement `v--` of a byte; the conversion `int(n)` of a `uint64`; the call
`bytes.Repeat(_, count)`. -/
inductive Op where
  | index (i len : Int)
  | slice (lo hi len : Int)
  | decrement (v : Nat)
  | toInt (n : Nat)
  | repeatCount (count : Int)
  deriving DecidableEq, Repr

/-- When an operation neither panics nor wraps around: an index within the
length, slice bounds in order and within the length, a decrement of a non-zero
byte, a conversion of a value that fits an `int`, and a repeat count that is
not negative and at most `maxLength`. -/
def Op.InRange (maxLength : Nat) : Op → Prop
  | .index i len => 0 ≤ i ∧ i < len
  | .slice lo hi len => 0 ≤ lo ∧ lo ≤ hi ∧ hi ≤ len
  | .decrement v => 0 < v
  | .toInt n => n < 2 ^ 63
  | .repeatCount count => 0 ≤ count ∧ count ≤ (maxLength : Int)

/-- The `case tableRLE` body of `DecodeBytes` with the list of the operations
it performs, in the order of evaluation. -/
def decodeRLELog (maxLength : Nat) (data : List Byte) : Outcome × List Op :=
  if (data.length : Int) < 2 then (.ret [] (some .ErrCorrupted), [])
  else
    let ops1 := [Op.slice 0 ((data.length : Int) - 1) (data.length : Int)]
    match slice data 0 ((data.length : Int) - 1) with
    | none => (.panic, ops1)
    | some head =>
      let r := Uvarint head
      if r.2 ≤ 0 ∨ r.1 > maxLength then (.ret [] (some .ErrCorrupted), ops1)
      else
        let ops2 := ops1 ++
          [Op.slice ((data.length : Int) - 1) (data.length : Int) (data.length : Int)]
        match slice data ((data.length : Int) - 1) (data.length : Int) with
        | none => (.panic, ops2)
        | some last =>
          let ops3 := ops2 ++ [Op.toInt r.1, Op.repeatCount (uint64ToInt r.1)]
          match bytesRepeat last (uint64ToInt r.1) with
          | none => (.panic, ops3)
          | some name => (.ret name none, ops3)

/-- The `default` body of `DecodeBytes` with the list of the operations it
performs: the index `decTables[table]` and the slice `dst[:0]` of the array of
`maxLength` bytes. -/
def decodeStaticLog {σ δ : Type} (E : Env σ δ) (table : Byte) (data : List Byte) :
    Outcome × List Op :=
  if table.val ≥ E.decTables.length % 256 then (.ret [] (some .ErrCorrupted), [])
  else
    let ops1 := [Op.index (table.val : Int) (E.decTables.length : Int)]
    match E.decTables.get? table.val with
    | none => (.panic, ops1)
    | some none => (.ret [] (some .ErrUnsupported), ops1)
    | some (some dec) =>
      let ops2 := ops1 ++ [Op.slice 0 0 (E.maxLength : Int)]
      match E.decoderDecompress1X dec E.maxLength data with
      | .error _ => (.ret [] (some .ErrCorrupted), ops2)
      | .ok name =>
        if table = E.tableSCSU then (ofScsu (E.scsuDecode name), ops2)
        else (.ret name none, ops2)

/-- The function `DecodeBytes` with the list of the operations it performs. -/
def DecodeBytesLog {σ δ : Type} (E : Env σ δ) (st : State σ) (table : Byte)
    (data : List Byte) : Option (Outcome × State σ) × List Op :=
  if table = E.tableUncompressed then (some (.ret data none, st), [])
  else if table = E.tableReserved then (some (.ret [] (some .ErrUnsupported), st), [])
  else if table = E.tableSCSUPlain then (some (ofScsu (E.scsuDecode data), st), [])
  else if table = E.tableRLE then
    let r := decodeRLELog E.maxLength data
    (some (r.1, st), r.2)
  else if table = E.tableCustom then
    if st.customDecMu then (none, [])
    else
      let locked : State σ := { st with customDecMu := true }
      let r := decodeCustom E locked.customDec data
      (some (r.1, { customDec := r.2, customDecMu := false }), [])
  else
    let r := decodeStaticLog E table data
    (some (r.1, st), r.2)

/-- The function `Decode` with the list of the operations it performs: `s[0]`,
`table--`, `s[1:]`, the slice `data[:n]` of the buffer of
`base64.URLEncoding.DecodedLen(len(s))` bytes, and those of `DecodeBytes`. -/
def DecodeLog {σ δ : Type} (E : Env σ δ) (st : State σ) (s : List Byte) :
    Option (Outcome × State σ) × List Op :=
  if s.length < 1 then (some (.ret [] (some .ErrCorrupted), st), [])
  else
    let ops1 := [Op.index 0 (s.length : Int)]
    match s.get? 0 with
    | none => (some (.panic, st), ops1)
    | some c =>
      let table := E.decodeMap c
      if table = 0 then (some (.ret [] (some .ErrCorrupted), st), ops1)
      else
        let ops2 := ops1 ++
          [Op.decrement table.val, Op.slice 1 (s.length : Int) (s.length : Int)]
        let table : Byte := table - 1
        match slice s 1 s.length with
        | none => (some (.panic, st), ops2)
        | some s =>
          let r := base64Decode s
          if r.2 ∨ (r.1.length : Int) < 0 then (some (.ret [] (some .ErrCorrupted), st), ops2)
          else
            let ops3 := ops2 ++ [Op.slice 0 (r.1.length : Int) ((s.length / 4 * 3 : Nat) : Int)]
            let b := DecodeBytesLog E st table r.1
            (b.1, ops3 ++ b.2)

/-! ## An instance of the environment -/

/-- The selector table `initCoders` fills: `decodeMap[encodeURL[i]] = i + 1`, and
`0` for every other character. -/
def sampleDecodeMap : Byte → Byte :=
  encodeURL.enum.foldl (fun m p => fun c => if c = p.2 then Fin.ofNat (p.1 + 1) else m c)
    (fun _ => 0)

/-- A stand-in for `scsu.Decode` in examples: bytes `0x20`..`0x7f` stand for
themselves, any other byte ends the decoding with error number `1`. -/
def sampleScsuDecode : List Byte → List Byte × Option Nat
  | [] => ([], none)
  | c :: rest =>
    if 0x20 ≤ c.val ∧ c.val < 0x80 then
      let r := sampleScsuDecode rest
      (c :: r.1, r.2)
    else ([], some 1)

/-- A stand-in for the prefix-code decompressors in examples: the first byte is
the length of the output, the rest is the output; anything else, or an output
longer than the limit, is an error. -/
def sampleDecompress (limit : Nat) : List Byte → Except Nat (List Byte)
  | [] => .error 2
  | n :: body => if n.val = body.length ∧ body.length ≤ limit then .ok body else .error 3

/-- An environment for examples: table ids `0` (uncompressed), `59` (SCSU over a
static dictionary), `60` (plain SCSU), `61` (run-length), `62` (custom table),
`63` (reserved), names of at most 256 bytes, 64 dictionary slots of which
`1`, `2`, `3` and `59` are filled. -/
def sampleEnv : Env Unit Unit where
  tableUncompressed := 0
  tableReserved := 63
  tableSCSUPlain := 60
  tableRLE := 61
  tableCustom := 62
  tableSCSU := 59
  maxLength := 256
  decodeMap := sampleDecodeMap
  decTables := [none, some (), some (), some ()] ++ List.replicate 55 none ++ [some ()] ++
    List.replicate 4 none
  scsuDecode := sampleScsuDecode
  readTable := fun data s =>
    match data with
    | [] => (s, .error 4)
    | _ :: remain => (s, .ok remain)
  scratchDecompress1X := fun s data => (s, sampleDecompress s.MaxDecodedSize data)
  decoderDecompress1X := fun _ cap data => sampleDecompress cap data

/-- A state with the mutex free. -/
def sampleState : State Unit :=
  { customDec := { MaxDecodedSize := 0, dt := () }, customDecMu := false }


/-- An environment for examples in which the scratch decoder carries a table:
the first byte of a payload is the table, kept in the scratch by `readTable`,
and decompressing adds the table in the scratch to every byte of the body.
The table ids and the other codecs are those of `sampleEnv`. -/
def tableEnv : Env (List Byte) Unit where
  tableUncompressed := 0
  tableReserved := 63
  tableSCSUPlain := 60
  tableRLE := 61
  tableCustom := 62
  tableSCSU := 59
  maxLength := 256
  decodeMap := sampleDecodeMap
  decTables := [none, some (), some (), some ()] ++ List.replicate 55 none ++ [some ()] ++
    List.replicate 4 none
  scsuDecode := sampleScsuDecode
  readTable := fun data s =>
    match data with
    | [] => (s, .error 4)
    | k :: remain => ({ s with dt := [k] }, .ok remain)
  scratchDecompress1X := fun s data =>
    match s.dt with
    | [k] => if data.length ≤ s.MaxDecodedSize then (s, .ok (data.map (· + k))) else (s, .error 3)
    | _ => (s, .error 5)
  decoderDecompress1X := fun _ cap data => sampleDecompress cap data

/-! ## The dispatch of `DecodeBytes` -/

section dispatch

variable {σ δ : Type}

theorem DecodeBytes_tableSCSUPlain (E : Env σ δ) (hE : E.WellFormed) (st : State σ)
    (data : List Byte) :
    DecodeBytes E st E.tableSCSUPlain data = some (ofScsu (E.scsuDecode data), st) := by
  obtain ⟨hnd, -⟩ := hE
  simp only [Env.sentinels, List.nodup_cons, List.mem_cons, not_or, List.mem_singleton] at hnd
  obtain ⟨⟨-, h1, -, -⟩, ⟨h2, -, -⟩, -⟩ := hnd
  simp [DecodeBytes, Ne.symm h1, Ne.symm h2]

theorem DecodeBytes_tableRLE (E : Env σ δ) (hE : E.WellFormed) (st : State σ)
    (data : List Byte) :
    DecodeBytes E st E.tableRLE data = some (decodeRLE E.maxLength data, st) := by
  obtain ⟨hnd, -⟩ := hE
  simp only [Env.sentinels, List.nodup_cons, List.mem_cons, not_or, List.mem_singleton] at hnd
  obtain ⟨⟨-, -, h1, -⟩, ⟨-, h2, -⟩, ⟨h3, -⟩, -⟩ := hnd
  simp [DecodeBytes, Ne.symm h1, Ne.symm h2, Ne.symm h3]

theorem DecodeBytes_default (E : Env σ δ) (st : State σ) (table : Byte)
    (ht : table ∉ E.sentinels) (data : List Byte) :
    DecodeBytes E st table data = some (decodeStatic E table data, st) := by
  simp only [Env.sentinels, List.mem_cons, not_or, List.mem_singleton, List.not_mem_nil,
    or_false] at ht
  obtain ⟨h1, h2, h3, h4, h5⟩ := ht
  simp [DecodeBytes, h1, h2, h3, h4, h5]

theorem decodeStatic_out_of_range (E : Env σ δ) (table : Byte)
    (ht : E.decTables.length ≤ table.val) (data : List Byte) :
    decodeStatic E table data = .ret [] (some .ErrCorrupted) := by
  have h : E.decTables.length % 256 ≤ table.val := le_trans (Nat.mod_le _ _) ht
  simp [decodeStatic, h]

theorem decodeStatic_absent (E : Env σ δ) (table : Byte) (hlen : E.decTables.length < 256)
    (ht : E.decTables.get? table.val = some none) (data : List Byte) :
    decodeStatic E table data = .ret [] (some .ErrUnsupported) := by
  have hlt : table.val < E.decTables.length := by
    by_contra hge
    rw [List.get?_eq_none.mpr (not_lt.mp hge)] at ht
    exact absurd ht (by simp)
  have h : ¬ (E.decTables.length % 256 ≤ table.val) := by
    rw [Nat.mod_eq_of_lt hlen]; omega
  rw [List.get?_eq_getElem?] at ht
  simp [decodeStatic, h, ht]

end dispatch

/-! ## The run-length strategy -/

theorem slice_init (head : List Byte) (sym : Byte) :
    slice (head ++ [sym]) 0 (((head ++ [sym]).length : Int) - 1) = some head := by
  simp [slice]

theorem slice_last (head : List Byte) (sym : Byte) :
    slice (head ++ [sym]) (((head ++ [sym]).length : Int) - 1) ((head ++ [sym]).length : Int)
      = some [sym] := by
  have h1 : List.take (head.length + 1) (head ++ [sym]) = head ++ [sym] :=
    List.take_of_length_le (by simp)
  simp [slice, h1]

theorem uint64ToInt_of_lt (n : Nat) (h : n < 2 ^ 63) : uint64ToInt n = (n : Int) := by
  have h1 : n % 2 ^ 64 = n := Nat.mod_eq_of_lt (by omega)
  rw [uint64ToInt, h1, if_pos h]

theorem bytesRepeat_single (sym : Byte) (n : Nat) :
    bytesRepeat [sym] (n : Int) = some (List.replicate n sym) := by
  have h : ¬ ((n : Int) < 0) := by omega
  simp only [bytesRepeat, h, if_false, Int.toNat_ofNat]
  congr 1
  induction n with
  | zero => rfl
  | succ k ih => simp [List.replicate_succ, ih]

/-- The run-length body on a payload of at least two bytes, split into all its
bytes but the last and the last. -/
theorem decodeRLE_append (m : Nat) (hm : m < 2 ^ 63) (head : List Byte) (hh : head ≠ [])
    (sym : Byte) :
    decodeRLE m (head ++ [sym]) =
      if (Uvarint head).2 ≤ 0 ∨ (Uvarint head).1 > m then .ret [] (some .ErrCorrupted)
      else .ret (List.replicate (Uvarint head).1 sym) none := by
  have hlen : ¬ (((head ++ [sym]).length : Int) < 2) := by
    have : 0 < head.length := List.length_pos.mpr hh
    simp only [List.length_append, List.length_singleton]
    omega
  unfold decodeRLE
  rw [if_neg hlen, slice_init, slice_last]
  by_cases hc : (Uvarint head).2 ≤ 0 ∨ (Uvarint head).1 > m
  · simp [hc]
  · have hn : (Uvarint head).1 < 2 ^ 63 := by
      have := not_or.mp hc
      omega
    simp only [hc, if_false]
    rw [uint64ToInt_of_lt _ hn, bytesRepeat_single]

/-! ## Reading back a varint -/

theorem lor_mul_pow (x m s : Nat) (hx : x < 2 ^ s) : x ||| m * 2 ^ s = x + m * 2 ^ s := by
  rw [Nat.lor_comm, Nat.mul_comm m, ← Nat.mul_add_lt_is_or hx, Nat.add_comm]

theorem byte_lor_high (m : Fin 256) : (m.val ||| 0x80) % 256 = 128 + m.val % 128 := by
  revert m; decide

theorem byte_and_low (m : Fin 256) : m.val &&& 0x7f = m.val % 128 := by
  revert m; decide

/-- The value of the byte `byte(x) | 0x80` that `PutUvarint` writes. -/
theorem continuation_val (x : Nat) :
    (Fin.ofNat ((x % 256) ||| 0x80) : Byte).val = 128 + x % 128 := by
  have h := byte_lor_high ⟨x % 256, Nat.mod_lt _ (by decide)⟩
  simp only [Fin.ofNat, Fin.val_mk] at h ⊢
  rw [h]; omega

theorem shift_fits (n i : Nat) (hi : i ≤ 9) (hn : n < 2 ^ (64 - 7 * i)) :
    n * 2 ^ (7 * i) < 2 ^ 64 := by
  have h64 : (2 : Nat) ^ 64 = 2 ^ (64 - 7 * i) * 2 ^ (7 * i) := by
    rw [← pow_add]; congr 1; omega
  rw [h64]
  exact Nat.mul_lt_mul_of_pos_right hn (by positivity)

theorem uvarintLoop_putUvarintLoop (fuel : Nat) :
    ∀ i x n : Nat, i + fuel = 10 → 1 ≤ fuel → x < 2 ^ (7 * i) → n < 2 ^ (64 - 7 * i) →
      uvarintLoop (putUvarintLoop fuel n) i x (7 * i) =
        (x + n * 2 ^ (7 * i), (i : Int) + (putUvarintLoop fuel n).length) := by
  induction fuel with
  | zero => intro i x n _ h; omega
  | succ k ih =>
    intro i x n hik _ hx hn
    have hi : i ≤ 9 := by omega
    have hi10 : i ≠ MaxVarintLen64 := by simp [MaxVarintLen64]; omega
    by_cases hbig : n ≥ 0x80
    · -- a continuation byte, then the rest
      have hi8 : i ≤ 8 := by
        by_contra h9
        have : i = 9 := by omega
        subst this
        norm_num at hn
        omega
      have hcv := continuation_val n
      have hnot : ¬ ((Fin.ofNat ((n % 256) ||| 0x80) : Byte).val < 0x80) := by
        rw [hcv]; omega
      have hand : (Fin.ofNat ((n % 256) ||| 0x80) : Byte).val &&& 0x7f = n % 128 := by
        rw [byte_and_low, hcv]; omega
      have hlow : n % 128 < 2 ^ (64 - 7 * i) := lt_of_le_of_lt (Nat.mod_le _ _) hn
      have hfit := shift_fits (n % 128) i hi hlow
      have hpow : (2 : Nat) ^ (7 * (i + 1)) = 2 ^ (7 * i) * 128 := by
        rw [Nat.mul_add, pow_add]; norm_num
      have hx1 : x + n % 128 * 2 ^ (7 * i) < 2 ^ (7 * (i + 1)) := by
        rw [hpow]
        have h1 : n % 128 * 2 ^ (7 * i) ≤ 127 * 2 ^ (7 * i) :=
          Nat.mul_le_mul_right _ (by omega)
        omega
      have hn1 : n >>> 7 < 2 ^ (64 - 7 * (i + 1)) := by
        rw [Nat.shiftRight_eq_div_pow]
        apply Nat.div_lt_of_lt_mul
        have : (2 : Nat) ^ 7 * 2 ^ (64 - 7 * (i + 1)) = 2 ^ (64 - 7 * i) := by
          rw [← pow_add]; congr 1; omega
        rw [this]; exact hn
      have hrec := ih (i + 1) (x + n % 128 * 2 ^ (7 * i)) (n >>> 7) (by omega) (by omega) hx1 hn1
      simp only [putUvarintLoop, if_pos hbig, uvarintLoop, if_neg hi10, if_neg hnot, hand,
        Nat.shiftLeft_eq, Nat.mod_eq_of_lt hfit, lor_mul_pow _ _ _ hx]
      have h7 : 7 * i + 7 = 7 * (i + 1) := by ring
      rw [h7, hrec, hpow, Nat.shiftRight_eq_div_pow]
      refine Prod.ext ?_ ?_
      · show x + n % 128 * 2 ^ (7 * i) + n / 2 ^ 7 * (2 ^ (7 * i) * 128) = x + n * 2 ^ (7 * i)
        have hdm : 128 * (n / 128) + n % 128 = n := Nat.div_add_mod n 128
        calc x + n % 128 * 2 ^ (7 * i) + n / 2 ^ 7 * (2 ^ (7 * i) * 128)
            = x + (128 * (n / 128) + n % 128) * 2 ^ (7 * i) := by norm_num; ring
          _ = x + n * 2 ^ (7 * i) := by rw [hdm]
      · simp only [List.length_cons]; push_cast; ring
    · -- the last byte
      have hlt : n < 128 := by omega
      have hval : (Fin.ofNat n : Byte).val = n := by
        simp only [Fin.ofNat, Fin.val_mk]; omega
      have hsmall : (Fin.ofNat n : Byte).val < 0x80 := by rw [hval]; exact hlt
      have hnine : ¬ (i = MaxVarintLen64 - 1 ∧ 1 < n) := by
        rintro ⟨h9, h1⟩
        simp only [MaxVarintLen64] at h9
        subst h9
        norm_num at hn
        omega
      have hfit := shift_fits n i hi hn
      simp only [putUvarintLoop, if_neg hbig, uvarintLoop, if_neg hi10, if_pos hsmall,
        hval, Nat.shiftLeft_eq, Nat.mod_eq_of_lt hfit, lor_mul_pow _ _ _ hx]
      simp [hnine, hlt]

/-- Reading back what `PutUvarint` wrote: `Uvarint` returns the value and the
number of bytes written, which is positive. -/
theorem Uvarint_varint (n : Nat) (hn : n < 2 ^ 64) :
    Uvarint (varint n) = (n, ((varint n).length : Int)) ∧ varint n ≠ [] := by
  have h := uvarintLoop_putUvarintLoop 10 0 0 n rfl (by decide) (by norm_num) (by simpa using hn)
  unfold Uvarint varint
  rw [Nat.mod_eq_of_lt hn]
  constructor
  · simpa [MaxVarintLen64] using h
  · rw [show MaxVarintLen64 = 9 + 1 from rfl, putUvarintLoop]
    split <;> simp

/-! ## Reading back a base64 encoding -/

theorem urlDecodeMap_urlEncode (v : Fin 64) : (urlDecodeMap (urlEncode v.val)).val = v.val := by
  revert v; decide

theorem urlDecodeMap_padChar : urlDecodeMap padChar = 0xff := by decide

/-- A character of the alphabet decodes to its six-bit value, which is not the
marker `0xff`. -/
theorem urlDecodeMap_sextet (v : Nat) (hv : v < 64) :
    urlDecodeMap (urlEncode v) = Fin.ofNat v ∧ urlDecodeMap (urlEncode v) ≠ 0xff := by
  have h := urlDecodeMap_urlEncode ⟨v, hv⟩
  simp only [Fin.val_mk] at h
  have h1 : urlDecodeMap (urlEncode v) = Fin.ofNat v := by
    apply Fin.ext
    rw [h]
    simp only [Fin.ofNat, Fin.val_mk]
    omega
  refine ⟨h1, ?_⟩
  intro hff
  have : (urlDecodeMap (urlEncode v)).val = 255 := by rw [hff]; rfl
  omega

theorem and_63 (x : Nat) : x &&& 0x3F = x % 64 :=
  Nat.and_pow_two_sub_one_eq_mod x 6

theorem lor_shift3 (a b c : Nat) (hb : b < 256) (hc : c < 256) :
    a <<< 16 ||| b <<< 8 ||| c = a * 65536 + b * 256 + c := by
  have h1 : c ||| b * 2 ^ 8 = c + b * 2 ^ 8 := lor_mul_pow c b 8 (by omega)
  have h2 : (c + b * 2 ^ 8) ||| a * 2 ^ 16 = c + b * 2 ^ 8 + a * 2 ^ 16 :=
    lor_mul_pow _ a 16 (by omega)
  rw [Nat.shiftLeft_eq, Nat.shiftLeft_eq, Nat.lor_comm, Nat.lor_comm (a * 2 ^ 16), ← Nat.lor_assoc,
    h1, h2]
  omega

theorem lor_shift4 (d0 d1 d2 d3 : Nat) (h1 : d1 < 64) (h2 : d2 < 64) (h3 : d3 < 64) :
    d0 <<< 18 ||| d1 <<< 12 ||| d2 <<< 6 ||| d3 = d0 * 262144 + d1 * 4096 + d2 * 64 + d3 := by
  have e1 : d3 ||| d2 * 2 ^ 6 = d3 + d2 * 2 ^ 6 := lor_mul_pow d3 d2 6 (by omega)
  have e2 : (d3 + d2 * 2 ^ 6) ||| d1 * 2 ^ 12 = d3 + d2 * 2 ^ 6 + d1 * 2 ^ 12 :=
    lor_mul_pow _ d1 12 (by omega)
  have e3 : (d3 + d2 * 2 ^ 6 + d1 * 2 ^ 12) ||| d0 * 2 ^ 18
      = d3 + d2 * 2 ^ 6 + d1 * 2 ^ 12 + d0 * 2 ^ 18 := lor_mul_pow _ d0 18 (by omega)
  rw [Nat.shiftLeft_eq, Nat.shiftLeft_eq, Nat.shiftLeft_eq,
    Nat.lor_comm _ d3, Nat.lor_comm _ (d2 * 2 ^ 6), Nat.lor_comm (d0 * 2 ^ 18),
    ← Nat.lor_assoc, ← Nat.lor_assoc, e1, e2, e3]
  omega

theorem sextets_recompose (v : Nat) (hv : v < 16777216) :
    v / 262144 % 64 * 262144 + v / 4096 % 64 * 4096 + v / 64 % 64 * 64 + v % 64 = v := by
  omega

theorem bytes_split (a b c : Nat) (ha : a < 256) (hb : b < 256) (hc : c < 256) :
    (a * 65536 + b * 256 + c) / 65536 % 256 = a ∧ (a * 65536 + b * 256 + c) / 256 % 256 = b ∧
      (a * 65536 + b * 256 + c) / 1 % 256 = c := by
  omega


theorem sextet_val (v s : Nat) :
    (Fin.ofNat (v >>> s &&& 0x3F) : Byte).val = v / 2 ^ s % 64 := by
  simp only [Fin.ofNat, Fin.val_mk, and_63, Nat.shiftRight_eq_div_pow]
  omega

theorem sextet_val_zero (v : Nat) : (Fin.ofNat (v &&& 0x3F) : Byte).val = v % 64 := by
  simp only [Fin.ofNat, Fin.val_mk, and_63]
  omega

/-- Four six-bit values of a 24-bit number put the number together again. -/
theorem sextets_lor (v : Nat) (hv : v < 16777216) :
    (Fin.ofNat (v >>> 18 &&& 0x3F) : Byte).val <<< 18 |||
      (Fin.ofNat (v >>> 12 &&& 0x3F) : Byte).val <<< 12 |||
      (Fin.ofNat (v >>> 6 &&& 0x3F) : Byte).val <<< 6 |||
      (Fin.ofNat (v &&& 0x3F) : Byte).val = v := by
  rw [sextet_val, sextet_val, sextet_val, sextet_val_zero,
    lor_shift4 _ _ _ _ (Nat.mod_lt _ (by decide)) (Nat.mod_lt _ (by decide))
      (Nat.mod_lt _ (by decide))]
  omega

theorem ofNat_shift (v s : Nat) (x : Byte) (h : v / 2 ^ s % 256 = x.val) :
    (Fin.ofNat (v >>> s) : Byte) = x := by
  apply Fin.ext
  simp only [Fin.ofNat, Fin.val_mk, Nat.shiftRight_eq_div_pow]
  exact h

/-- The three bytes `decodeQuantum` computes from the four six-bit values of
three bytes are those bytes. -/
theorem quantumBytes_full (a b c : Byte) :
    quantumBytes
      [Fin.ofNat ((a.val <<< 16 ||| b.val <<< 8 ||| c.val) >>> 18 &&& 0x3F),
       Fin.ofNat ((a.val <<< 16 ||| b.val <<< 8 ||| c.val) >>> 12 &&& 0x3F),
       Fin.ofNat ((a.val <<< 16 ||| b.val <<< 8 ||| c.val) >>> 6 &&& 0x3F),
       Fin.ofNat ((a.val <<< 16 ||| b.val <<< 8 ||| c.val) &&& 0x3F)] 4 = [a, b, c] := by
  have ha := a.isLt
  have hb := b.isLt
  have hc := c.isLt
  have hv : a.val <<< 16 ||| b.val <<< 8 ||| c.val < 16777216 := by
    rw [lor_shift3 _ _ _ hb hc]; omega
  simp only [quantumBytes, List.getD_cons_zero, List.getD_cons_succ]
  rw [sextets_lor _ hv, lor_shift3 _ _ _ hb hc,
    ofNat_shift _ 16 a (by omega), ofNat_shift _ 8 b (by omega), ofNat_shift _ 0 c (by omega)]
  rfl

theorem lor_shift2 (a b : Nat) (hb : b < 256) : a <<< 16 ||| b <<< 8 = a * 65536 + b * 256 := by
  have h := lor_shift3 a b 0 hb (by decide)
  simpa using h

theorem quantumBytes_two (a b : Byte) :
    quantumBytes
      [Fin.ofNat ((a.val <<< 16 ||| b.val <<< 8) >>> 18 &&& 0x3F),
       Fin.ofNat ((a.val <<< 16 ||| b.val <<< 8) >>> 12 &&& 0x3F),
       Fin.ofNat ((a.val <<< 16 ||| b.val <<< 8) >>> 6 &&& 0x3F), 0] 3 = [a, b] := by
  have ha := a.isLt
  have hb := b.isLt
  have hv : a.val <<< 16 ||| b.val <<< 8 < 16777216 := by
    rw [lor_shift2 _ _ hb]; omega
  have h0 : (Fin.ofNat ((a.val <<< 16 ||| b.val <<< 8) &&& 0x3F) : Byte) = 0 := by
    apply Fin.ext
    rw [sextet_val_zero, lor_shift2 _ _ hb]
    show _ = 0
    omega
  have h := sextets_lor _ hv
  rw [h0] at h
  simp only [quantumBytes, List.getD_cons_zero, List.getD_cons_succ]
  rw [h, lor_shift2 _ _ hb, ofNat_shift _ 16 a (by omega), ofNat_shift _ 8 b (by omega)]
  rfl

theorem quantumBytes_one (a : Byte) :
    quantumBytes
      [Fin.ofNat ((a.val <<< 16) >>> 18 &&& 0x3F),
       Fin.ofNat ((a.val <<< 16) >>> 12 &&& 0x3F), 0, 0] 2 = [a] := by
  have ha := a.isLt
  have hs : a.val <<< 16 = a.val * 65536 := by rw [Nat.shiftLeft_eq]
  have hv : a.val <<< 16 < 16777216 := by rw [hs]; omega
  have h0 : (Fin.ofNat ((a.val <<< 16) &&& 0x3F) : Byte) = 0 := by
    apply Fin.ext
    rw [sextet_val_zero, hs]
    show _ = 0
    omega
  have h6 : (Fin.ofNat ((a.val <<< 16) >>> 6 &&& 0x3F) : Byte) = 0 := by
    apply Fin.ext
    rw [sextet_val, hs]
    show _ = 0
    omega
  have h := sextets_lor _ hv
  rw [h0, h6] at h
  simp only [quantumBytes, List.getD_cons_zero, List.getD_cons_succ]
  rw [h, hs, ofNat_shift _ 16 a (by omega)]
  rfl

theorem sextet_lt (v s : Nat) : v >>> s &&& 0x3F < 64 := by
  rw [and_63]; exact Nat.mod_lt _ (by decide)

theorem sextet_lt_zero (v : Nat) : v &&& 0x3F < 64 := by
  rw [and_63]; exact Nat.mod_lt _ (by decide)

theorem ofNat_ne_marker (v : Nat) (hv : v < 64) : (Fin.ofNat v : Byte) ≠ 0xff := by
  intro h
  have h1 : (Fin.ofNat v : Byte).val = 255 := by rw [h]; rfl
  simp only [Fin.ofNat, Fin.val_mk] at h1
  omega

/-- Four characters of the alphabet are one quantum of three bytes. -/
theorem decodeQuantum_four (v0 v1 v2 v3 : Nat) (h0 : v0 < 64) (h1 : v1 < 64) (h2 : v2 < 64)
    (h3 : v3 < 64) (rest : List Byte) :
    decodeQuantum (urlEncode v0 :: urlEncode v1 :: urlEncode v2 :: urlEncode v3 :: rest) =
      ⟨rest, quantumBytes [Fin.ofNat v0, Fin.ofNat v1, Fin.ofNat v2, Fin.ofNat v3] 4, false⟩ := by
  simp [decodeQuantum, decodeQuantumLoop, (urlDecodeMap_sextet v0 h0).1,
    (urlDecodeMap_sextet v1 h1).1, (urlDecodeMap_sextet v2 h2).1, (urlDecodeMap_sextet v3 h3).1,
    ofNat_ne_marker v0 h0, ofNat_ne_marker v1 h1, ofNat_ne_marker v2 h2, ofNat_ne_marker v3 h3]

theorem padChar_not_newline : ¬ (padChar = 10 ∨ padChar = 13) := by decide

/-- Three characters and one `=` are a last quantum of two bytes. -/
theorem decodeQuantum_three (v0 v1 v2 : Nat) (h0 : v0 < 64) (h1 : v1 < 64) (h2 : v2 < 64) :
    decodeQuantum [urlEncode v0, urlEncode v1, urlEncode v2, padChar] =
      ⟨[], quantumBytes [Fin.ofNat v0, Fin.ofNat v1, Fin.ofNat v2, 0] 3, false⟩ := by
  simp [decodeQuantum, decodeQuantumLoop, (urlDecodeMap_sextet v0 h0).1,
    (urlDecodeMap_sextet v1 h1).1, (urlDecodeMap_sextet v2 h2).1,
    ofNat_ne_marker v0 h0, ofNat_ne_marker v1 h1, ofNat_ne_marker v2 h2,
    urlDecodeMap_padChar, padChar_not_newline, skipNewlines]

/-- Two characters and `==` are a last quantum of one byte. -/
theorem decodeQuantum_two (v0 v1 : Nat) (h0 : v0 < 64) (h1 : v1 < 64) :
    decodeQuantum [urlEncode v0, urlEncode v1, padChar, padChar] =
      ⟨[], quantumBytes [Fin.ofNat v0, Fin.ofNat v1, 0, 0] 2, false⟩ := by
  simp [decodeQuantum, decodeQuantumLoop, (urlDecodeMap_sextet v0 h0).1,
    (urlDecodeMap_sextet v1 h1).1, ofNat_ne_marker v0 h0, ofNat_ne_marker v1 h1,
    urlDecodeMap_padChar, padChar_not_newline, skipNewlines]

/-- The decoding loop reads back a padded encoding, whatever was written
before, given one round of fuel for each character. -/
theorem base64DecodeLoop_encode (n : Nat) :
    ∀ (b dst : List Byte) (fuel : Nat), b.length ≤ n →
      (base64Encode true b).length ≤ fuel →
      base64DecodeLoop fuel (base64Encode true b) dst = some (dst ++ b, false) := by
  induction n with
  | zero =>
    intro b dst fuel hb _
    have : b = [] := List.length_eq_zero.mp (Nat.le_zero.mp hb)
    subst this
    cases fuel <;> simp [base64Encode, base64DecodeLoop]
  | succ k ih =>
    intro b dst fuel hb hfuel
    match b, hb, hfuel with
    | [], _, _ => cases fuel <;> simp [base64Encode, base64DecodeLoop]
    | [a], _, hfuel =>
      obtain ⟨f, rfl⟩ : ∃ f, fuel = f + 1 := by
        cases fuel with
        | zero => simp [base64Encode] at hfuel
        | succ f => exact ⟨f, rfl⟩
      have e : base64Encode true [a] = [urlEncode ((a.val <<< 16) >>> 18 &&& 0x3F),
          urlEncode ((a.val <<< 16) >>> 12 &&& 0x3F), padChar, padChar] := rfl
      rw [e]
      simp only [base64DecodeLoop]
      rw [decodeQuantum_two _ _ (sextet_lt _ _) (sextet_lt _ _), quantumBytes_one]
      cases f <;> simp [base64DecodeLoop]
    | [a, b], _, hfuel =>
      obtain ⟨f, rfl⟩ : ∃ f, fuel = f + 1 := by
        cases fuel with
        | zero => simp [base64Encode] at hfuel
        | succ f => exact ⟨f, rfl⟩
      have e : base64Encode true [a, b] =
          [urlEncode ((a.val <<< 16 ||| b.val <<< 8) >>> 18 &&& 0x3F),
            urlEncode ((a.val <<< 16 ||| b.val <<< 8) >>> 12 &&& 0x3F),
            urlEncode ((a.val <<< 16 ||| b.val <<< 8) >>> 6 &&& 0x3F), padChar] := rfl
      rw [e]
      simp only [base64DecodeLoop]
      rw [decodeQuantum_three _ _ _ (sextet_lt _ _) (sextet_lt _ _) (sextet_lt _ _),
        quantumBytes_two]
      cases f <;> simp [base64DecodeLoop]
    | a :: b :: c :: rest, hb, hfuel =>
      obtain ⟨f, rfl⟩ : ∃ f, fuel = f + 1 := by
        cases fuel with
        | zero => simp [base64Encode] at hfuel
        | succ f => exact ⟨f, rfl⟩
      have hrest : rest.length ≤ k := by
        simp only [List.length_cons] at hb; omega
      have hf : (base64Encode true rest).length ≤ f := by
        simp only [base64Encode, List.length_cons] at hfuel; omega
      simp only [base64Encode, base64DecodeLoop]
      rw [decodeQuantum_four _ _ _ _ (sextet_lt _ _) (sextet_lt _ _) (sextet_lt _ _)
        (sextet_lt_zero _), quantumBytes_full]
      simp only [Bool.false_eq_true, if_false]
      rw [ih rest (dst ++ [a, b, c]) f hrest hf]
      simp

/-- The decoder reads back every padded encoding. -/
theorem base64Decode_encode (b : List Byte) :
    base64Decode (base64Encode true b) = (b, false) := by
  have h := base64DecodeLoop_encode b.length b [] (base64Encode true b).length le_rfl le_rfl
  simp [base64Decode, h]

/-- Without padding the encoding is the same when the input is a whole number
of three-byte groups. -/
theorem base64Encode_unpadded (n : Nat) :
    ∀ b : List Byte, b.length ≤ n → b.length % 3 = 0 →
      base64Encode false b = base64Encode true b := by
  induction n with
  | zero =>
    intro b hb _
    have : b = [] := List.length_eq_zero.mp (Nat.le_zero.mp hb)
    subst this
    rfl
  | succ k ih =>
    intro b hb h3
    match b, hb, h3 with
    | [], _, _ => rfl
    | [_], _, h3 => simp at h3
    | [_, _], _, h3 => simp at h3
    | a :: b :: c :: rest, hb, h3 =>
      simp only [List.length_cons] at hb h3
      simp only [base64Encode]
      rw [ih rest (by omega) (by omega)]

/-! ## The decoding loop never runs out of fuel -/

theorem skipNewlines_length (l : List Byte) : (skipNewlines l).length ≤ l.length := by
  induction l with
  | nil => simp [skipNewlines]
  | cons c rest ih =>
    simp only [skipNewlines]
    split
    · simp only [List.length_cons]; omega
    · exact le_rfl

/-- A round of `decodeQuantum` on a non-empty source reads at least one byte. -/
theorem decodeQuantumLoop_rest (src : List Byte) :
    ∀ (j : Nat) (dbuf : List Byte), (decodeQuantumLoop src j dbuf).rest.length ≤ src.length - 1 := by
  induction src with
  | nil => intro j dbuf; simp only [decodeQuantumLoop]; split <;> simp
  | cons c rest ih =>
    intro j dbuf
    have hs := skipNewlines_length rest
    simp only [decodeQuantumLoop, List.length_cons, Nat.add_sub_cancel]
    split_ifs
    · exact le_trans (ih _ _) (Nat.sub_le _ _)
    · exact le_rfl
    · exact le_trans (ih _ _) (Nat.sub_le _ _)
    · exact le_rfl
    · exact le_rfl
    · split
      · simp
      · rename_i c2 rest2 heq
        rw [heq] at hs
        have h2 := skipNewlines_length rest2
        simp only [List.length_cons] at hs
        split_ifs
        · simp only [List.length_cons]; omega
        · simp only []; omega
    · exact hs

theorem base64DecodeLoop_isSome (fuel : Nat) :
    ∀ src dst : List Byte, src.length ≤ fuel → (base64DecodeLoop fuel src dst).isSome := by
  induction fuel with
  | zero =>
    intro src dst h
    have : src = [] := List.length_eq_zero.mp (Nat.le_zero.mp h)
    subst this
    simp [base64DecodeLoop]
  | succ f ih =>
    intro src dst h
    match src, h with
    | [], _ => simp [base64DecodeLoop]
    | c :: rest, h =>
      simp only [base64DecodeLoop]
      split_ifs
      · simp
      · apply ih
        have := decodeQuantumLoop_rest (c :: rest) 0 [0, 0, 0, 0]
        simp only [List.length_cons, Nat.add_sub_cancel] at this h
        exact le_trans this (by omega)

/-- The result of `base64Decode` is the result of its loop: the fuel it gives
is enough for every source. -/
theorem base64Decode_spec (src : List Byte) :
    base64DecodeLoop src.length src [] = some (base64Decode src) := by
  have h := base64DecodeLoop_isSome src.length src [] le_rfl
  obtain ⟨r, hr⟩ := Option.isSome_iff_exists.mp h
  simp [base64Decode, hr]

/-! ## The example environment -/

theorem sampleEnv_wellFormed : sampleEnv.WellFormed :=
  ⟨by decide, by decide⟩

/-! ## Claims about `DecodeBytes` -/

/-- C1: for every byte sequence `b`, the empty one included,
`DecodeBytes(tableUncompressed, b)` succeeds and returns exactly `b` with a nil
error; the package state is left as it was. -/
theorem DecodeBytes_uncompressed_identity {σ δ : Type} (E : Env σ δ) (st : State σ)
    (b : List Byte) :
    DecodeBytes E st E.tableUncompressed b = some (.ret b none, st) := by
  simp [DecodeBytes]

/-- C2: for every count `n` with `0 ≤ n ≤ maxLength` and every byte `sym`,
`DecodeBytes(tableRLE, varint(n) ++ [sym])` succeeds and returns `n` copies of
`sym`, a name of length `n`. -/
theorem DecodeBytes_rle_varint {σ δ : Type} (E : Env σ δ) (hE : E.WellFormed) (st : State σ)
    (n : Nat) (hn : n ≤ E.maxLength) (sym : Byte) :
    DecodeBytes E st E.tableRLE (varint n ++ [sym]) =
        some (.ret (List.replicate n sym) none, st) ∧
      (List.replicate n sym).length = n := by
  have hm : E.maxLength < 2 ^ 63 := hE.2
  have hn64 : n < 2 ^ 64 := by omega
  obtain ⟨hread, hne⟩ := Uvarint_varint n hn64
  have hpos : 0 < (varint n).length := List.length_pos.mpr hne
  have hcond : ¬ ((Uvarint (varint n)).2 ≤ 0 ∨ (Uvarint (varint n)).1 > E.maxLength) := by
    rw [hread]
    simp only [not_or, not_le, gt_iff_lt, not_lt]
    exact ⟨by exact_mod_cast hpos, hn⟩
  refine ⟨?_, List.length_replicate _ _⟩
  rw [DecodeBytes_tableRLE E hE, decodeRLE_append _ hm _ hne, if_neg hcond, hread]

/-- The example of C2: the payload `{0x05, 0x41}` gives `"AAAAA"`. -/
theorem DecodeBytes_rle_varint_witness :
    sampleEnv.WellFormed ∧ 5 ≤ sampleEnv.maxLength ∧
      (DecodeBytes sampleEnv sampleState sampleEnv.tableRLE [0x05, 0x41] =
          some (.ret [0x41, 0x41, 0x41, 0x41, 0x41] none, sampleState) ∧
        ([0x41, 0x41, 0x41, 0x41, 0x41] : List Byte).length = 5) :=
  ⟨sampleEnv_wellFormed, by decide,
    DecodeBytes_rle_varint sampleEnv sampleEnv_wellFormed sampleState 5 (by decide) 0x41⟩

/-- C3: for every payload, `DecodeBytes(tableRLE, data)` returns `ErrCorrupted`
exactly when `len(data) < 2`, or `binary.Uvarint` of all bytes but the last
consumes `≤ 0` bytes, or the count read is greater than `maxLength`; in every
other case it succeeds; and it never returns `ErrUnsupported`. -/
theorem DecodeBytes_rle_corrupted_iff {σ δ : Type} (E : Env σ δ) (hE : E.WellFormed)
    (st : State σ) (data : List Byte) :
    (DecodeBytes E st E.tableRLE data = some (.ret [] (some .ErrCorrupted), st) ↔
        (data.length < 2 ∨ (Uvarint data.dropLast).2 ≤ 0 ∨
          (Uvarint data.dropLast).1 > E.maxLength)) ∧
      (¬ (data.length < 2 ∨ (Uvarint data.dropLast).2 ≤ 0 ∨
            (Uvarint data.dropLast).1 > E.maxLength) →
        ∃ name, DecodeBytes E st E.tableRLE data = some (.ret name none, st)) ∧
      (∀ name st', DecodeBytes E st E.tableRLE data ≠
        some (.ret name (some .ErrUnsupported), st')) := by
  rw [DecodeBytes_tableRLE E hE]
  by_cases hlen : data.length < 2
  · have hshort : decodeRLE E.maxLength data = .ret [] (some .ErrCorrupted) := by
      have : (data.length : Int) < 2 := by exact_mod_cast hlen
      simp [decodeRLE, this]
    rw [hshort]
    refine ⟨⟨fun _ => Or.inl hlen, fun _ => rfl⟩, fun h => absurd (Or.inl hlen) h, ?_⟩
    intro name st' h
    simp at h
  · have hne : data ≠ [] := by
      intro h; subst h; simp at hlen
    have hsplit : data = data.dropLast ++ [data.getLast hne] :=
      (List.dropLast_append_getLast hne).symm
    have hhead : data.dropLast ≠ [] := by
      intro h
      have hl : data.dropLast.length = 0 := by rw [h]; rfl
      rw [List.length_dropLast] at hl
      omega
    have hbody := decodeRLE_append E.maxLength hE.2 data.dropLast hhead (data.getLast hne)
    rw [← hsplit] at hbody
    rw [hbody]
    by_cases hc : (Uvarint data.dropLast).2 ≤ 0 ∨ (Uvarint data.dropLast).1 > E.maxLength
    · rw [if_pos hc]
      refine ⟨⟨fun _ => Or.inr hc, fun _ => rfl⟩, fun h => absurd (Or.inr hc) h, ?_⟩
      intro name st' h
      simp at h
    · rw [if_neg hc]
      refine ⟨⟨fun h => ?_, fun h => ?_⟩, fun _ => ⟨_, rfl⟩, ?_⟩
      · simp at h
      · rcases h with h | h
        · exact absurd h hlen
        · exact absurd h hc
      · intro name st' h
        simp at h

/-- A payload on which C3 is read off: `{0x80, 0x41}` has an unterminated
count and is corrupt. -/
theorem DecodeBytes_rle_corrupted_iff_witness :
    sampleEnv.WellFormed ∧
      DecodeBytes sampleEnv sampleState sampleEnv.tableRLE [0x80, 0x41] =
        some (.ret [] (some .ErrCorrupted), sampleState) :=
  ⟨sampleEnv_wellFormed,
    (DecodeBytes_rle_corrupted_iff sampleEnv sampleEnv_wellFormed sampleState
      [0x80, 0x41]).1.mpr (by decide)⟩

/-- C4, at the failing input: when `scsu.Decode` fails on a `tableSCSUPlain`
payload, `DecodeBytes` returns the error value of `scsu.Decode` itself, which is
neither `ErrCorrupted` nor `ErrUnsupported`. -/
theorem DecodeBytes_scsuPlain_error_passthrough {σ δ : Type} (E : Env σ δ)
    (hE : E.WellFormed) (st : State σ) (data : List Byte) (code : Nat)
    (h : (E.scsuDecode data).2 = some code) :
    DecodeBytes E st E.tableSCSUPlain data =
        some (.ret (E.scsuDecode data).1 (some (.scsu code)), st) ∧
      DecodeError.scsu code ≠ .ErrCorrupted ∧ DecodeError.scsu code ≠ .ErrUnsupported := by
  refine ⟨?_, by simp, by simp⟩
  rw [DecodeBytes_tableSCSUPlain E hE]
  simp [ofScsu, h]

/-- The failing input of C4 in the example environment: a payload that is not
a valid stream. -/
theorem DecodeBytes_scsuPlain_error_passthrough_witness :
    sampleEnv.WellFormed ∧ (sampleEnv.scsuDecode [0x0E]).2 = some 1 ∧
      (DecodeBytes sampleEnv sampleState sampleEnv.tableSCSUPlain [0x0E] =
          some (.ret (sampleEnv.scsuDecode [0x0E]).1 (some (.scsu 1)), sampleState) ∧
        DecodeError.scsu 1 ≠ .ErrCorrupted ∧ DecodeError.scsu 1 ≠ .ErrUnsupported) :=
  ⟨sampleEnv_wellFormed, by decide,
    DecodeBytes_scsuPlain_error_passthrough sampleEnv sampleEnv_wellFormed sampleState [0x0E] 1
      (by decide)⟩

/-! ## Claims about the static-dictionary range -/

/-- C5, as stated, fails: in the example environment the id `200` is none of
the sentinel ids and indexes no configured slot (it is past the 64 slots), and
`DecodeBytes` returns `ErrCorrupted`, not `ErrUnsupported`. -/
theorem DecodeBytes_past_tables_corrupted :
    (200 : Byte) ∉ sampleEnv.sentinels ∧
      sampleEnv.decTables.get? (200 : Byte).val = none ∧
      DecodeBytes sampleEnv sampleState 200 [] =
        some (.ret [] (some .ErrCorrupted), sampleState) ∧
      DecodeBytes sampleEnv sampleState 200 [] ≠
        some (.ret [] (some .ErrUnsupported), sampleState) := by
  decide

/-- C5, amended: for every table id that is none of the sentinel ids and is not
the index of a configured slot of `decTables`, and for every payload,
`DecodeBytes` returns `ErrUnsupported` (and so not `ErrCorrupted`) when the id
indexes within `decTables`, and `ErrCorrupted` when the id is at or past
`len(decTables)`. -/
theorem DecodeBytes_unconfigured {σ δ : Type} (E : Env σ δ) (st : State σ) (t : Byte)
    (ht : t ∉ E.sentinels) (hlen : E.decTables.length < 256)
    (hcfg : ∀ dec, E.decTables.get? t.val ≠ some (some dec)) (d : List Byte) :
    (t.val < E.decTables.length →
        DecodeBytes E st t d = some (.ret [] (some .ErrUnsupported), st) ∧
        DecodeBytes E st t d ≠ some (.ret [] (some .ErrCorrupted), st)) ∧
      (E.decTables.length ≤ t.val →
        DecodeBytes E st t d = some (.ret [] (some .ErrCorrupted), st)) := by
  rw [DecodeBytes_default E st t ht]
  constructor
  · intro hlt
    have habsent : E.decTables.get? t.val = some none := by
      cases hget : E.decTables.get? t.val with
      | none =>
        rw [List.get?_eq_none] at hget
        omega
      | some slot =>
        cases slot with
        | none => rfl
        | some dec => exact absurd hget (hcfg dec)
    rw [decodeStatic_absent E t hlen habsent]
    exact ⟨rfl, by simp⟩
  · intro hge
    rw [decodeStatic_out_of_range E t hge]

/-- The amended C5 in the example environment: slot `4` is in range and
empty. -/
theorem DecodeBytes_unconfigured_witness :
    (4 : Byte) ∉ sampleEnv.sentinels ∧ sampleEnv.decTables.length < 256 ∧
      sampleEnv.decTables.get? (4 : Byte).val = some none ∧
      DecodeBytes sampleEnv sampleState 4 [1, 2, 3] =
        some (.ret [] (some .ErrUnsupported), sampleState) :=
  ⟨by decide, by decide, by decide,
    ((DecodeBytes_unconfigured sampleEnv sampleState 4 (by decide) (by decide) (by decide)
      [1, 2, 3]).1 (by decide)).1⟩

/-- C6: for every table id that reaches the static-dictionary branch: if the id
does not index within `decTables`, `DecodeBytes` returns `ErrCorrupted`; if it
is in range and the slot is absent, `DecodeBytes` returns `ErrUnsupported`
(`len(decTables)` fitting the byte it is converted to); in both cases for every
payload alike. -/
theorem DecodeBytes_static_range {σ δ : Type} (E : Env σ δ) (st : State σ) (t : Byte)
    (ht : t ∉ E.sentinels) :
    (E.decTables.length ≤ t.val →
        ∀ d, DecodeBytes E st t d = some (.ret [] (some .ErrCorrupted), st)) ∧
      (E.decTables.length < 256 → E.decTables.get? t.val = some none →
        ∀ d, DecodeBytes E st t d = some (.ret [] (some .ErrUnsupported), st)) := by
  constructor
  · intro hge d
    rw [DecodeBytes_default E st t ht, decodeStatic_out_of_range E t hge]
  · intro hlen habsent d
    rw [DecodeBytes_default E st t ht, decodeStatic_absent E t hlen habsent]

/-- C6 in the example environment: id `64` is past the slots, slot `4` is
empty. -/
theorem DecodeBytes_static_range_witness :
    ((64 : Byte) ∉ sampleEnv.sentinels ∧ sampleEnv.decTables.length ≤ (64 : Byte).val ∧
        DecodeBytes sampleEnv sampleState 64 [7] =
          some (.ret [] (some .ErrCorrupted), sampleState)) ∧
      ((4 : Byte) ∉ sampleEnv.sentinels ∧ sampleEnv.decTables.length < 256 ∧
        sampleEnv.decTables.get? (4 : Byte).val = some none ∧
        DecodeBytes sampleEnv sampleState 4 [7] =
          some (.ret [] (some .ErrUnsupported), sampleState)) :=
  ⟨⟨by decide, by decide,
      (DecodeBytes_static_range sampleEnv sampleState 64 (by decide)).1 (by decide) [7]⟩,
    ⟨by decide, by decide, by decide,
      (DecodeBytes_static_range sampleEnv sampleState 4 (by decide)).2 (by decide) (by decide)
        [7]⟩⟩

/-! ## Claims about `Decode` -/

theorem slice_tail (c : Byte) (rest : List Byte) :
    slice (c :: rest) 1 ((c :: rest).length : Nat) = some rest := by
  have h : List.take (rest.length + 1) (c :: rest) = c :: rest :=
    List.take_of_length_le (by simp)
  simp [slice, h]

theorem byte_pred (x t : Byte) (h : x.val = t.val + 1) : x - 1 = t := by
  apply Fin.ext
  have ht := t.isLt
  have hx := x.isLt
  rw [Fin.sub_def]
  simp only [Fin.val_mk, Fin.val_one]
  omega

/-- What `Decode` does with a selector that is in the alphabet. -/
theorem Decode_cons {σ δ : Type} (E : Env σ δ) (st : State σ) (c : Byte) (rest : List Byte)
    (t : Byte) (hc : (E.decodeMap c).val = t.val + 1) :
    Decode E st (c :: rest) =
      if (base64Decode rest).2 then some (.ret [] (some .ErrCorrupted), st)
      else DecodeBytes E st t (base64Decode rest).1 := by
  have hne : E.decodeMap c ≠ 0 := by
    intro h
    rw [h] at hc
    simp at hc
  have hlen : ¬ ((c :: rest).length < 1) := by simp
  have hnonneg : ¬ (((base64Decode rest).1.length : Int) < 0) := by omega
  unfold Decode
  rw [if_neg hlen]
  simp only [List.get?_cons_zero, if_neg hne, slice_tail, byte_pred _ t hc, hnonneg, or_false]

/-- C7: for every input string that is empty, or whose first byte is outside the
selector alphabet (`decodeMap[c] = 0`), `Decode` returns `ErrCorrupted`, whatever
follows the first byte. -/
theorem Decode_bad_selector {σ δ : Type} (E : Env σ δ) (st : State σ) (s : List Byte)
    (h : ∀ c, s.head? = some c → E.decodeMap c = 0) :
    Decode E st s = some (.ret [] (some .ErrCorrupted), st) := by
  cases s with
  | nil => simp [Decode]
  | cons c rest =>
    have hc : E.decodeMap c = 0 := h c rfl
    simp [Decode, hc]

/-- C7 in the example environment: the string `"!AAAA"`, whose first character
is no selector. -/
theorem Decode_bad_selector_witness :
    ([33, 65, 65, 65, 65] : List Byte).head? = some 33 ∧ sampleEnv.decodeMap 33 = 0 ∧
      Decode sampleEnv sampleState [33, 65, 65, 65, 65] =
        some (.ret [] (some .ErrCorrupted), sampleState) :=
  ⟨by decide, by decide,
    Decode_bad_selector sampleEnv sampleState [33, 65, 65, 65, 65] (by decide)⟩

/-- C8: for every non-empty string whose first byte `c` is in the selector
alphabet, `decodeMap[c] = t + 1`: if the remainder fails to decode under
`base64.URLEncoding`, `Decode` returns `ErrCorrupted`; otherwise, with `d` the
decoded bytes, `Decode` returns exactly what `DecodeBytes(t, d)` returns. -/
theorem Decode_delegates {σ δ : Type} (E : Env σ δ) (st : State σ) (c : Byte)
    (rest : List Byte) (t : Byte) (hc : (E.decodeMap c).val = t.val + 1) :
    ((base64Decode rest).2 = true →
        Decode E st (c :: rest) = some (.ret [] (some .ErrCorrupted), st)) ∧
      ((base64Decode rest).2 = false →
        Decode E st (c :: rest) = DecodeBytes E st t (base64Decode rest).1) := by
  rw [Decode_cons E st c rest t hc]
  constructor
  · intro h; rw [h]; rfl
  · intro h; rw [h]; rfl

/-- C8 in the example environment: selector `9` is table `61` (run-length);
`"BUE="` decodes to `{0x05, 0x41}` and the name is `"AAAAA"`, while `"BUE"`
does not decode. -/
theorem Decode_delegates_witness :
    (sampleEnv.decodeMap 57).val = (61 : Byte).val + 1 ∧
      base64Decode [66, 85, 69, 61] = ([0x05, 0x41], false) ∧
      Decode sampleEnv sampleState [57, 66, 85, 69, 61] =
        some (.ret [0x41, 0x41, 0x41, 0x41, 0x41] none, sampleState) ∧
      (base64Decode [66, 85, 69]).2 = true ∧
      Decode sampleEnv sampleState [57, 66, 85, 69] =
        some (.ret [] (some .ErrCorrupted), sampleState) :=
  ⟨by decide, by decide,
    ((Decode_delegates sampleEnv sampleState 57 [66, 85, 69, 61] 61 (by decide)).2
      (by decide)).trans (by decide),
    by decide,
    (Decode_delegates sampleEnv sampleState 57 [66, 85, 69] 61 (by decide)).1 (by decide)⟩

/-! ## The uncompressed round trip through `Decode` -/

/-- C9, as stated, fails: selector `A` maps to `tableUncompressed` in the
example environment, the one byte `"a"` is `"YQ"` in base64url without padding,
and `Decode("AYQ")` returns `ErrCorrupted`. -/
theorem Decode_unpadded_corrupted :
    (sampleEnv.decodeMap 65).val = sampleEnv.tableUncompressed.val + 1 ∧
      base64Encode false [97] = [89, 81] ∧
      Decode sampleEnv sampleState (65 :: base64Encode false [97]) =
        some (.ret [] (some .ErrCorrupted), sampleState) := by
  decide

/-- C9, amended: for every byte sequence `b` and every selector `c` that maps to
`tableUncompressed`, `Decode` of `c` followed by the base64url encoding of `b`
with `=` padding succeeds and returns exactly `b`; the encoding written
without padding is decoded to `b` when `len(b)` is a multiple of 3. -/
theorem Decode_uncompressed_padded {σ δ : Type} (E : Env σ δ) (st : State σ) (c : Byte)
    (b : List Byte) (hc : (E.decodeMap c).val = E.tableUncompressed.val + 1) :
    Decode E st (c :: base64Encode true b) = some (.ret b none, st) ∧
      (b.length % 3 = 0 →
        Decode E st (c :: base64Encode false b) = some (.ret b none, st)) := by
  have hpad : Decode E st (c :: base64Encode true b) = some (.ret b none, st) := by
    rw [Decode_cons E st c _ _ hc, base64Decode_encode]
    simp [DecodeBytes]
  refine ⟨hpad, fun h3 => ?_⟩
  rw [base64Encode_unpadded b.length b le_rfl h3]
  exact hpad

/-- The example of C9: selector `A` and the payload `"aGVsbG8udHh0"` give
`"hello.txt"`. -/
theorem Decode_uncompressed_padded_witness :
    (sampleEnv.decodeMap 65).val = sampleEnv.tableUncompressed.val + 1 ∧
      Decode sampleEnv sampleState
          (65 :: [97, 71, 86, 115, 98, 71, 56, 117, 100, 72, 104, 48]) =
        some (.ret [104, 101, 108, 108, 111, 46, 116, 120, 116] none, sampleState) :=
  ⟨by decide,
    (Decode_uncompressed_padded sampleEnv sampleState 65
      [104, 101, 108, 108, 111, 46, 116, 120, 116] (by decide)).1⟩

/-! ## The bound on the decoded length -/

/-- C10, as stated, fails: `DecodeBytes(tableUncompressed, b)` returns all of
`b`, here 257 bytes where `maxLength` is 256. -/
theorem DecodeBytes_uncompressed_unbounded :
    DecodeBytes sampleEnv sampleState sampleEnv.tableUncompressed (List.replicate 257 0) =
        some (.ret (List.replicate 257 0) none, sampleState) ∧
      ¬ ((List.replicate 257 (0 : Byte)).length ≤ sampleEnv.maxLength) := by
  decide

theorem flatten_replicate_single (k : Nat) (l : List Byte) :
    (List.replicate k l).flatten.length = k * l.length := by
  induction k with
  | zero => simp
  | succ k ih => simp [List.replicate_succ, ih]; ring

theorem uint64ToInt_toNat_le (n : Nat) (h : ¬ (uint64ToInt n < 0)) :
    (uint64ToInt n).toNat ≤ n := by
  unfold uint64ToInt at h ⊢
  have hmod : n % 2 ^ 64 ≤ n := Nat.mod_le _ _
  have hlt : n % 2 ^ 64 < 2 ^ 64 := Nat.mod_lt _ (by norm_num)
  by_cases h63 : n % 2 ^ 64 < 2 ^ 63
  · rw [if_pos h63, Int.toNat_ofNat]
    exact hmod
  · rw [if_neg h63] at h
    omega

/-- A name the run-length body returns has at most `maxLength` bytes. -/
theorem decodeRLE_length (m : Nat) (data name : List Byte)
    (h : decodeRLE m data = .ret name none) : name.length ≤ m := by
  by_cases hlen : (data.length : Int) < 2
  · simp [decodeRLE, hlen] at h
  · have hne : data ≠ [] := by
      intro h0; subst h0; simp at hlen
    have hsplit : data = data.dropLast ++ [data.getLast hne] :=
      (List.dropLast_append_getLast hne).symm
    have h1 := slice_init data.dropLast (data.getLast hne)
    have h2 := slice_last data.dropLast (data.getLast hne)
    rw [← hsplit] at h1 h2
    unfold decodeRLE at h
    rw [if_neg hlen, h1, h2] at h
    simp only at h
    by_cases hc : (Uvarint data.dropLast).2 ≤ 0 ∨ (Uvarint data.dropLast).1 > m
    · rw [if_pos hc] at h
      simp at h
    · rw [if_neg hc] at h
      by_cases hneg : uint64ToInt (Uvarint data.dropLast).1 < 0
      · simp [bytesRepeat, hneg] at h
      · simp only [bytesRepeat, if_neg hneg, Outcome.ret.injEq, and_true] at h
        subst h
        rw [flatten_replicate_single]
        have := uint64ToInt_toNat_le _ hneg
        have hle := not_or.mp hc
        simp only [List.length_singleton, Nat.mul_one]
        omega

/-- A name the custom-table body returns has at most `maxLength` bytes when the
scratch decoder keeps to its `MaxDecodedSize`. -/
theorem decodeCustom_length {σ δ : Type} (E : Env σ δ) (dec0 : Scratch σ) (d name : List Byte)
    (hS : ∀ s src s' out, E.scratchDecompress1X s src = (s', .ok out) →
      out.length ≤ s.MaxDecodedSize)
    (h : (decodeCustom E dec0 d).1 = .ret name none) : name.length ≤ E.maxLength := by
  rcases hrt : E.readTable d dec0 with ⟨dec, _ | remain⟩
  · simp [decodeCustom, hrt] at h
  · rcases hdc : E.scratchDecompress1X { dec with MaxDecodedSize := E.maxLength } remain
      with ⟨dec2, _ | out⟩
    · simp [decodeCustom, hrt, hdc] at h
    · simp only [decodeCustom, hrt, hdc, Outcome.ret.injEq, and_true] at h
      subst h
      exact hS _ _ _ _ hdc

/-- A name the static-dictionary body returns for an id other than `tableSCSU`
has at most `maxLength` bytes when the decoder keeps to the capacity of `dst`. -/
theorem decodeStatic_length {σ δ : Type} (E : Env σ δ) (t : Byte) (d name : List Byte)
    (hD : ∀ dec cap src out, E.decoderDecompress1X dec cap src = .ok out → out.length ≤ cap)
    (h3 : t ≠ E.tableSCSU)
    (h : decodeStatic E t d = .ret name none) : name.length ≤ E.maxLength := by
  unfold decodeStatic at h
  by_cases hr : t.val ≥ E.decTables.length % 256
  · rw [if_pos hr] at h
    simp at h
  · rw [if_neg hr] at h
    rcases hslot : E.decTables.get? t.val with _ | _ | dec
    · rw [hslot] at h
      simp at h
    · rw [hslot] at h
      simp at h
    · rw [hslot] at h
      simp only at h
      rcases hdc : E.decoderDecompress1X dec E.maxLength d with _ | out
      · rw [hdc] at h
        simp at h
      · rw [hdc] at h
        simp only [if_neg h3, Outcome.ret.injEq, and_true] at h
        subst h
        exact hD _ _ _ _ hdc

/-- C10, amended: for every table id other than `tableUncompressed`,
`tableSCSUPlain` and `tableSCSU` and every payload, if `DecodeBytes` succeeds
then the name has at most `maxLength` bytes, given that the two prefix-code
decompressors keep their output within the limit they are handed
(`MaxDecodedSize`, the capacity of `dst`). -/
theorem DecodeBytes_length_bound {σ δ : Type} (E : Env σ δ) (st st' : State σ) (t : Byte)
    (d name : List Byte)
    (hS : ∀ s src s' out, E.scratchDecompress1X s src = (s', .ok out) →
      out.length ≤ s.MaxDecodedSize)
    (hD : ∀ dec cap src out, E.decoderDecompress1X dec cap src = .ok out → out.length ≤ cap)
    (ht : t ≠ E.tableUncompressed ∧ t ≠ E.tableSCSUPlain ∧ t ≠ E.tableSCSU)
    (h : DecodeBytes E st t d = some (.ret name none, st')) :
    name.length ≤ E.maxLength := by
  obtain ⟨h1, h2, h3⟩ := ht
  unfold DecodeBytes at h
  rw [if_neg h1] at h
  by_cases hr : t = E.tableReserved
  · rw [if_pos hr] at h
    simp at h
  rw [if_neg hr, if_neg h2] at h
  by_cases hrle : t = E.tableRLE
  · rw [if_pos hrle] at h
    simp only [Option.some.injEq, Prod.mk.injEq] at h
    exact decodeRLE_length _ _ _ h.1
  rw [if_neg hrle] at h
  by_cases hcus : t = E.tableCustom
  · rw [if_pos hcus] at h
    by_cases hmu : st.customDecMu = true
    · rw [if_pos hmu] at h
      simp at h
    · rw [if_neg hmu] at h
      simp only [Option.some.injEq, Prod.mk.injEq] at h
      exact decodeCustom_length E _ d name hS h.1
  · rw [if_neg hcus] at h
    simp only [Option.some.injEq, Prod.mk.injEq] at h
    exact decodeStatic_length E t d name hD h3 h.1

theorem sampleDecompress_length (limit : Nat) (src out : List Byte)
    (h : sampleDecompress limit src = .ok out) : out.length ≤ limit := by
  cases src with
  | nil => simp [sampleDecompress] at h
  | cons n body =>
    simp only [sampleDecompress] at h
    split_ifs at h with hc
    simp only [Except.ok.injEq] at h
    subst h
    exact hc.2

/-- The amended C10 in the example environment, on the custom-table payload
`{0, 2, 0x41, 0x42}` that decodes to `"AB"`. -/
theorem DecodeBytes_length_bound_witness :
    DecodeBytes sampleEnv sampleState 62 [0, 2, 0x41, 0x42] =
        some (.ret [0x41, 0x42] none,
          { customDec := { MaxDecodedSize := 256, dt := () }, customDecMu := false }) ∧
      ([0x41, 0x42] : List Byte).length ≤ sampleEnv.maxLength :=
  ⟨by decide,
    DecodeBytes_length_bound sampleEnv sampleState
      { customDec := { MaxDecodedSize := 256, dt := () }, customDecMu := false } 62
      [0, 2, 0x41, 0x42] [0x41, 0x42]
      (fun s src s' out h => sampleDecompress_length s.MaxDecodedSize src out
        (congrArg Prod.snd h))
      (fun _ cap src out h => sampleDecompress_length cap src out h)
      (by decide) (by decide)⟩

/-! ## The reserved id, the static dictionaries and the custom table -/

theorem DecodeBytes_tableReserved {σ δ : Type} (E : Env σ δ) (hE : E.WellFormed) (st : State σ)
    (data : List Byte) :
    DecodeBytes E st E.tableReserved data = some (.ret [] (some .ErrUnsupported), st) := by
  obtain ⟨hnd, -⟩ := hE
  simp only [Env.sentinels, List.nodup_cons, List.mem_cons, not_or, List.mem_singleton] at hnd
  obtain ⟨⟨h1, -⟩, -⟩ := hnd
  simp [DecodeBytes, Ne.symm h1]

/-- C11: for every payload, `DecodeBytes(tableReserved, payload)` returns
`ErrUnsupported` and no name; hence `Decode` of any string whose selector maps to
`tableReserved` and whose remainder decodes as base64 returns `ErrUnsupported`
too. -/
theorem DecodeBytes_reserved_unsupported {σ δ : Type} (E : Env σ δ) (hE : E.WellFormed)
    (st : State σ) :
    (∀ payload, DecodeBytes E st E.tableReserved payload =
        some (.ret [] (some .ErrUnsupported), st)) ∧
      (∀ c rest, (E.decodeMap c).val = E.tableReserved.val + 1 →
        (base64Decode rest).2 = false →
        Decode E st (c :: rest) = some (.ret [] (some .ErrUnsupported), st)) := by
  refine ⟨fun payload => DecodeBytes_tableReserved E hE st payload, ?_⟩
  intro c rest hc hok
  rw [Decode_cons E st c rest _ hc, hok]
  exact DecodeBytes_tableReserved E hE st _

/-- C11 in the example environment: the reserved id `63` with a garbage
payload, and the string `"_aGVsbG8udHh0"` whose selector `_` maps to it. -/
theorem DecodeBytes_reserved_unsupported_witness :
    sampleEnv.WellFormed ∧
      DecodeBytes sampleEnv sampleState 63 [0xff, 0x00, 0x80] =
        some (.ret [] (some .ErrUnsupported), sampleState) ∧
      Decode sampleEnv sampleState
          (95 :: [97, 71, 86, 115, 98, 71, 56, 117, 100, 72, 104, 48]) =
        some (.ret [] (some .ErrUnsupported), sampleState) :=
  ⟨sampleEnv_wellFormed,
    (DecodeBytes_reserved_unsupported sampleEnv sampleEnv_wellFormed sampleState).1
      [0xff, 0x00, 0x80],
    (DecodeBytes_reserved_unsupported sampleEnv sampleEnv_wellFormed sampleState).2 95
      [97, 71, 86, 115, 98, 71, 56, 117, 100, 72, 104, 48] (by decide) (by decide)⟩

/-- The static-dictionary body on a configured slot. -/
theorem decodeStatic_configured {σ δ : Type} (E : Env σ δ) (t : Byte) (dec : δ)
    (hlen : E.decTables.length < 256) (hslot : E.decTables.get? t.val = some (some dec))
    (data : List Byte) :
    decodeStatic E t data =
      match E.decoderDecompress1X dec E.maxLength data with
      | .error _ => .ret [] (some .ErrCorrupted)
      | .ok name => if t = E.tableSCSU then ofScsu (E.scsuDecode name) else .ret name none := by
  have hlt : t.val < E.decTables.length := by
    by_contra hge
    rw [List.get?_eq_none.mpr (not_lt.mp hge)] at hslot
    exact absurd hslot (by simp)
  have hr : ¬ (t.val ≥ E.decTables.length % 256) := by
    rw [Nat.mod_eq_of_lt hlen]; omega
  unfold decodeStatic
  rw [if_neg hr, hslot]

/-- C12: for every static-dictionary id `t` in range with a configured
dictionary and every payload: when the single-stream decompression succeeds
with bytes `r`, `DecodeBytes(t, payload)` returns `r` itself if `t` is not
`tableSCSU` and the result of `scsu.Decode(r)` if `t = tableSCSU`; when the
decompression fails, it returns `ErrCorrupted`. -/
theorem DecodeBytes_static_dictionary {σ δ : Type} (E : Env σ δ) (st : State σ) (t : Byte)
    (dec : δ) (payload : List Byte) (ht : t ∉ E.sentinels)
    (hlen : E.decTables.length < 256) (hslot : E.decTables.get? t.val = some (some dec)) :
    (∀ r, E.decoderDecompress1X dec E.maxLength payload = .ok r →
        (t ≠ E.tableSCSU → DecodeBytes E st t payload = some (.ret r none, st)) ∧
        (t = E.tableSCSU →
          DecodeBytes E st t payload = some (ofScsu (E.scsuDecode r), st))) ∧
      (∀ e, E.decoderDecompress1X dec E.maxLength payload = .error e →
        DecodeBytes E st t payload = some (.ret [] (some .ErrCorrupted), st)) := by
  rw [DecodeBytes_default E st t ht, decodeStatic_configured E t dec hlen hslot]
  refine ⟨fun r hr => ?_, fun e he => ?_⟩
  · rw [hr]
    exact ⟨fun h => by simp [h], fun h => by simp [h]⟩
  · rw [he]

/-- C12 in the example environment: dictionary `2` returns the decompressed
bytes `"AB"`, dictionary `59` (`tableSCSU`) passes them through the second
decompressor, and a stream that does not decompress is corrupt. -/
theorem DecodeBytes_static_dictionary_witness :
    DecodeBytes sampleEnv sampleState 2 [2, 0x41, 0x42] =
        some (.ret [0x41, 0x42] none, sampleState) ∧
      DecodeBytes sampleEnv sampleState 59 [2, 0x41, 0x42] =
        some (ofScsu (sampleEnv.scsuDecode [0x41, 0x42]), sampleState) ∧
      DecodeBytes sampleEnv sampleState 2 [9, 0x41] =
        some (.ret [] (some .ErrCorrupted), sampleState) :=
  ⟨((DecodeBytes_static_dictionary sampleEnv sampleState 2 () [2, 0x41, 0x42] (by decide)
      (by decide) (by decide)).1 [0x41, 0x42] rfl).1 (by decide),
    ((DecodeBytes_static_dictionary sampleEnv sampleState 59 () [2, 0x41, 0x42] (by decide)
      (by decide) (by decide)).1 [0x41, 0x42] rfl).2 (by decide),
    (DecodeBytes_static_dictionary sampleEnv sampleState 2 () [9, 0x41] (by decide)
      (by decide) (by decide)).2 3 rfl⟩

theorem DecodeBytes_tableCustom {σ δ : Type} (E : Env σ δ) (hE : E.WellFormed) (st : State σ)
    (hfree : st.customDecMu = false) (data : List Byte) :
    DecodeBytes E st E.tableCustom data =
      some ((decodeCustom E st.customDec data).1,
        { customDec := (decodeCustom E st.customDec data).2, customDecMu := false }) := by
  obtain ⟨hnd, -⟩ := hE
  simp only [Env.sentinels, List.nodup_cons, List.mem_cons, not_or, List.mem_singleton] at hnd
  obtain ⟨⟨-, -, -, h1⟩, ⟨-, -, h2⟩, ⟨-, h3⟩, h4, -⟩ := hnd
  simp [DecodeBytes, Ne.symm h1.1, Ne.symm h2.1, Ne.symm h3.1, Ne.symm h4.1, hfree]

/-- C13: for every payload, with the mutex free, `DecodeBytes(tableCustom,
payload)` returns `ErrCorrupted` when `huff0.ReadTable` fails; otherwise it sets
`MaxDecodedSize` of the scratch decoder to `maxLength` and decompresses exactly
the bytes `ReadTable` left, returning `ErrCorrupted` if that fails and the
decompressed bytes as the name if it succeeds. -/
theorem DecodeBytes_custom_table {σ δ : Type} (E : Env σ δ) (hE : E.WellFormed) (st : State σ)
    (hfree : st.customDecMu = false) (payload : List Byte) :
    (∀ dec e, E.readTable payload st.customDec = (dec, .error e) →
        DecodeBytes E st E.tableCustom payload =
          some (.ret [] (some .ErrCorrupted), { customDec := dec, customDecMu := false })) ∧
      (∀ dec body, E.readTable payload st.customDec = (dec, .ok body) →
        (∀ dec2 e,
          E.scratchDecompress1X { dec with MaxDecodedSize := E.maxLength } body =
            (dec2, .error e) →
          DecodeBytes E st E.tableCustom payload =
            some (.ret [] (some .ErrCorrupted), { customDec := dec2, customDecMu := false })) ∧
        (∀ dec2 out,
          E.scratchDecompress1X { dec with MaxDecodedSize := E.maxLength } body =
            (dec2, .ok out) →
          DecodeBytes E st E.tableCustom payload =
            some (.ret out none, { customDec := dec2, customDecMu := false }))) := by
  rw [DecodeBytes_tableCustom E hE st hfree]
  refine ⟨fun dec e hr => ?_, fun dec body hr => ⟨fun dec2 e hd => ?_, fun dec2 out hd => ?_⟩⟩
  · simp [decodeCustom, hr]
  · simp [decodeCustom, hr, hd]
  · simp [decodeCustom, hr, hd]

/-- C13 in the example environment: an empty payload has no table, the payload
`{0, 9, 0x41}` has a body that does not decompress, and `{0, 2, 0x41, 0x42}`
gives `"AB"` with `MaxDecodedSize` left at `maxLength`. -/
theorem DecodeBytes_custom_table_witness :
    sampleEnv.WellFormed ∧ sampleState.customDecMu = false ∧
      DecodeBytes sampleEnv sampleState sampleEnv.tableCustom [] =
        some (.ret [] (some .ErrCorrupted),
          { customDec := { MaxDecodedSize := 0, dt := () }, customDecMu := false }) ∧
      DecodeBytes sampleEnv sampleState sampleEnv.tableCustom [0, 9, 0x41] =
        some (.ret [] (some .ErrCorrupted),
          { customDec := { MaxDecodedSize := 256, dt := () }, customDecMu := false }) ∧
      DecodeBytes sampleEnv sampleState sampleEnv.tableCustom [0, 2, 0x41, 0x42] =
        some (.ret [0x41, 0x42] none,
          { customDec := { MaxDecodedSize := 256, dt := () }, customDecMu := false }) :=
  ⟨sampleEnv_wellFormed, rfl,
    (DecodeBytes_custom_table sampleEnv sampleEnv_wellFormed sampleState rfl []).1 _ 4 rfl,
    ((DecodeBytes_custom_table sampleEnv sampleEnv_wellFormed sampleState rfl
      [0, 9, 0x41]).2 _ [9, 0x41] rfl).1 _ 3 rfl,
    ((DecodeBytes_custom_table sampleEnv sampleEnv_wellFormed sampleState rfl
      [0, 2, 0x41, 0x42]).2 _ [2, 0x41, 0x42] rfl).2 _ [0x41, 0x42] rfl⟩

/-! ## The mutex -/

/-- C16: for every table id and every payload, a `DecodeBytes` call that starts
with `customDecMu` free returns with it free, whatever the exit path; and for
every table id other than `tableCustom` the call returns whether or not the
mutex is held and leaves the mutex and the scratch decoder as they were: it
never acquires the lock. -/
theorem DecodeBytes_lock_released {σ δ : Type} (E : Env σ δ) (st : State σ) (t : Byte)
    (payload : List Byte) :
    (st.customDecMu = false →
        ∃ r st', DecodeBytes E st t payload = some (r, st') ∧ st'.customDecMu = false) ∧
      (t ≠ E.tableCustom → ∃ r, DecodeBytes E st t payload = some (r, st)) := by
  constructor
  · intro hfree
    unfold DecodeBytes
    split_ifs with h1 h2 h3 h4 h5 h6
    · exact ⟨_, _, rfl, hfree⟩
    · exact ⟨_, _, rfl, hfree⟩
    · exact ⟨_, _, rfl, hfree⟩
    · exact ⟨_, _, rfl, hfree⟩
    · rw [hfree] at h6
      exact absurd h6 (by simp)
    · exact ⟨_, _, rfl, rfl⟩
    · exact ⟨_, _, rfl, hfree⟩
  · intro hne
    unfold DecodeBytes
    rw [if_neg hne]
    split_ifs
    · exact ⟨_, rfl⟩
    · exact ⟨_, rfl⟩
    · exact ⟨_, rfl⟩
    · exact ⟨_, rfl⟩
    · exact ⟨_, rfl⟩

/-- C16 in the example environment, on the three exit paths of the custom-table
strategy (no table, a body that does not decompress, success), and for the
run-length strategy called while the mutex is held. -/
theorem DecodeBytes_lock_released_witness :
    (∃ r st', DecodeBytes sampleEnv sampleState 62 [] = some (r, st') ∧
        st'.customDecMu = false) ∧
      (∃ r st', DecodeBytes sampleEnv sampleState 62 [0, 9, 0x41] = some (r, st') ∧
        st'.customDecMu = false) ∧
      (∃ r st', DecodeBytes sampleEnv sampleState 62 [0, 2, 0x41, 0x42] = some (r, st') ∧
        st'.customDecMu = false) ∧
      (∃ r, DecodeBytes sampleEnv { sampleState with customDecMu := true } 61 [5, 0x41] =
        some (r, { sampleState with customDecMu := true })) :=
  ⟨(DecodeBytes_lock_released sampleEnv sampleState 62 []).1 rfl,
    (DecodeBytes_lock_released sampleEnv sampleState 62 [0, 9, 0x41]).1 rfl,
    (DecodeBytes_lock_released sampleEnv sampleState 62 [0, 2, 0x41, 0x42]).1 rfl,
    (DecodeBytes_lock_released sampleEnv { sampleState with customDecMu := true } 61
      [5, 0x41]).2 (by decide)⟩

/-! ## Where the run-length count ends -/

/-- When `Uvarint` reads a count, it reads it from the first `n` bytes alone:
`n` is within the buffer, and the bytes after the first `n` can be replaced by
any others. -/
theorem uvarintLoop_used (buf : List Byte) :
    ∀ (i x s v : Nat) (u : Int), uvarintLoop buf i x s = (v, u) → 0 < u →
      (i : Int) < u ∧ u ≤ (i : Int) + buf.length ∧
        ∀ extra, uvarintLoop (buf.take (u - i).toNat ++ extra) i x s = (v, u) := by
  induction buf with
  | nil =>
    intro i x s v u h hu
    simp only [uvarintLoop, Prod.mk.injEq] at h
    omega
  | cons b rest ih =>
    intro i x s v u h hu
    unfold uvarintLoop at h
    by_cases h10 : i = MaxVarintLen64
    · rw [if_pos h10] at h
      simp only [Prod.mk.injEq] at h
      omega
    · rw [if_neg h10] at h
      by_cases hb : b.val < 0x80
      · rw [if_pos hb] at h
        by_cases hov : i = MaxVarintLen64 - 1 ∧ b.val > 1
        · rw [if_pos hov] at h
          simp only [Prod.mk.injEq] at h
          omega
        · rw [if_neg hov] at h
          simp only [Prod.mk.injEq] at h
          obtain ⟨hv, hu1⟩ := h
          have htake : (u - (i : Int)).toNat = 1 := by omega
          refine ⟨by omega, by simp only [List.length_cons]; push_cast; omega, fun extra => ?_⟩
          rw [htake]
          simp only [List.take_succ_cons, List.take_zero, List.cons_append, List.nil_append,
            uvarintLoop, if_neg h10, if_pos hb, if_neg hov, hv, hu1]
      · rw [if_neg hb] at h
        obtain ⟨h1, h2, h3⟩ := ih (i + 1) _ (s + 7) v u h hu
        have htake : (u - (i : Int)).toNat = (u - ((i + 1 : Nat) : Int)).toNat + 1 := by
          push_cast at h1 ⊢; omega
        refine ⟨by push_cast at h1; omega,
          by simp only [List.length_cons]; push_cast at h2 ⊢; omega, fun extra => ?_⟩
        rw [htake]
        simp only [List.take_succ_cons, List.cons_append, uvarintLoop, if_neg h10, if_neg hb]
        exact h3 extra

/-- C15, as stated, fails: the payload `{0x05, 0x00, 0x41}` is accepted and
gives `"AAAAA"`, although the count `5` is the one byte `0x05` and the byte
`0x00` stands between it and the symbol. -/
theorem DecodeBytes_rle_extra_byte_accepted :
    DecodeBytes sampleEnv sampleState sampleEnv.tableRLE [0x05, 0x00, 0x41] =
        some (.ret [0x41, 0x41, 0x41, 0x41, 0x41] none, sampleState) ∧
      Uvarint [0x05, 0x00] = (5, 1) ∧ varint 5 = [0x05] := by
  decide

/-- C15, amended: for every run-length payload that `DecodeBytes(tableRLE, ...)`
decodes successfully, the varint of the repeat count is the first `used` bytes
of the payload, with `1 ≤ used ≤ len - 1`; the bytes between the end of the
varint and the final symbol byte are not looked at: the payload with any
bytes in their place is accepted with the same name. -/
theorem DecodeBytes_rle_count_bytes {σ δ : Type} (E : Env σ δ) (hE : E.WellFormed)
    (st : State σ) (data name : List Byte)
    (h : DecodeBytes E st E.tableRLE data = some (.ret name none, st)) :
    ∃ (sym : Byte) (used : Nat),
      data.getLast? = some sym ∧ 1 ≤ used ∧ used ≤ data.length - 1 ∧
        (Uvarint data.dropLast).2 = (used : Int) ∧
        Uvarint (data.dropLast.take used) = Uvarint data.dropLast ∧
        name = List.replicate (Uvarint data.dropLast).1 sym ∧
        ∀ extra, DecodeBytes E st E.tableRLE (data.dropLast.take used ++ extra ++ [sym]) =
          some (.ret name none, st) := by
  rw [DecodeBytes_tableRLE E hE] at h
  simp only [Option.some.injEq, Prod.mk.injEq, and_true] at h
  by_cases hlen : (data.length : Int) < 2
  · simp [decodeRLE, hlen] at h
  · have hne : data ≠ [] := by
      intro h0; subst h0; simp at hlen
    have hsplit : data = data.dropLast ++ [data.getLast hne] :=
      (List.dropLast_append_getLast hne).symm
    have hhead : data.dropLast ≠ [] := by
      intro h0
      have hl : data.dropLast.length = 0 := by rw [h0]; rfl
      rw [List.length_dropLast] at hl
      omega
    have hbody := decodeRLE_append E.maxLength hE.2 data.dropLast hhead (data.getLast hne)
    rw [← hsplit, h] at hbody
    by_cases hc : (Uvarint data.dropLast).2 ≤ 0 ∨ (Uvarint data.dropLast).1 > E.maxLength
    · rw [if_pos hc] at hbody
      simp at hbody
    · rw [if_neg hc] at hbody
      simp only [Outcome.ret.injEq, and_true] at hbody
      obtain ⟨hpos, hmax⟩ := not_or.mp hc
      have hu := uvarintLoop_used data.dropLast 0 0 0 (Uvarint data.dropLast).1
        (Uvarint data.dropLast).2 rfl (by omega)
      obtain ⟨-, hle, hext⟩ := hu
      simp only [Nat.cast_zero, sub_zero, zero_add] at hle hext
      have hdl : data.dropLast.length = data.length - 1 := List.length_dropLast data
      have hused : ((Uvarint data.dropLast).2.toNat : Int) = (Uvarint data.dropLast).2 :=
        Int.toNat_of_nonneg (by omega)
      have hread : ∀ extra, Uvarint (data.dropLast.take (Uvarint data.dropLast).2.toNat ++ extra)
          = Uvarint data.dropLast := fun extra => hext extra
      refine ⟨data.getLast hne, (Uvarint data.dropLast).2.toNat,
        List.getLast?_eq_getLast _ hne, by omega, by omega, hused.symm, ?_, hbody, ?_⟩
      · have := hread []
        rwa [List.append_nil] at this
      · intro extra
        have hne2 : data.dropLast.take (Uvarint data.dropLast).2.toNat ++ extra ≠ [] := by
          intro h0
          have hl := congrArg List.length h0
          simp only [List.length_append, List.length_take, List.length_nil] at hl
          omega
        rw [DecodeBytes_tableRLE E hE, decodeRLE_append _ hE.2 _ hne2, hread extra, if_neg hc,
          hbody]

/-- The amended C15 on the payload `{0x05, 0x00, 0x41}` of the example
environment. -/
theorem DecodeBytes_rle_count_bytes_witness :
    sampleEnv.WellFormed ∧
      DecodeBytes sampleEnv sampleState sampleEnv.tableRLE [0x05, 0x00, 0x41] =
        some (.ret [0x41, 0x41, 0x41, 0x41, 0x41] none, sampleState) ∧
      ∃ (sym : Byte) (used : Nat),
        ([0x05, 0x00, 0x41] : List Byte).getLast? = some sym ∧ 1 ≤ used ∧
          used ≤ ([0x05, 0x00, 0x41] : List Byte).length - 1 ∧
          (Uvarint ([0x05, 0x00, 0x41] : List Byte).dropLast).2 = (used : Int) ∧
          Uvarint (([0x05, 0x00, 0x41] : List Byte).dropLast.take used) =
            Uvarint ([0x05, 0x00, 0x41] : List Byte).dropLast ∧
          ([0x41, 0x41, 0x41, 0x41, 0x41] : List Byte) =
            List.replicate (Uvarint ([0x05, 0x00, 0x41] : List Byte).dropLast).1 sym ∧
          ∀ extra, DecodeBytes sampleEnv sampleState sampleEnv.tableRLE
              (([0x05, 0x00, 0x41] : List Byte).dropLast.take used ++ extra ++ [sym]) =
            some (.ret [0x41, 0x41, 0x41, 0x41, 0x41] none, sampleState) :=
  ⟨sampleEnv_wellFormed, by decide,
    DecodeBytes_rle_count_bytes sampleEnv sampleEnv_wellFormed sampleState [0x05, 0x00, 0x41]
      [0x41, 0x41, 0x41, 0x41, 0x41] (by decide)⟩

/-! ## No panic and no wrap-around -/

/-- The run-length body returns: its two slices are in range and the count it
hands to `bytes.Repeat` is not negative. -/
theorem decodeRLE_returns (m : Nat) (hm : m < 2 ^ 63) (data : List Byte) :
    ∃ name err, decodeRLE m data = .ret name err := by
  by_cases hlen : (data.length : Int) < 2
  · exact ⟨[], some .ErrCorrupted, by simp [decodeRLE, hlen]⟩
  · have hne : data ≠ [] := by
      intro h0; subst h0; simp at hlen
    have hsplit : data = data.dropLast ++ [data.getLast hne] :=
      (List.dropLast_append_getLast hne).symm
    have hhead : data.dropLast ≠ [] := by
      intro h0
      have hl : data.dropLast.length = 0 := by rw [h0]; rfl
      rw [List.length_dropLast] at hl
      omega
    have hbody := decodeRLE_append m hm data.dropLast hhead (data.getLast hne)
    rw [← hsplit] at hbody
    rw [hbody]
    split_ifs
    · exact ⟨_, _, rfl⟩
    · exact ⟨_, _, rfl⟩

/-- The custom-table body returns. -/
theorem decodeCustom_returns {σ δ : Type} (E : Env σ δ) (dec0 : Scratch σ) (data : List Byte) :
    ∃ name err, (decodeCustom E dec0 data).1 = .ret name err := by
  rcases hrt : E.readTable data dec0 with ⟨dec, _ | remain⟩
  · exact ⟨[], some .ErrCorrupted, by simp [decodeCustom, hrt]⟩
  · rcases hdc : E.scratchDecompress1X { dec with MaxDecodedSize := E.maxLength } remain
      with ⟨dec2, _ | out⟩
    · exact ⟨[], some .ErrCorrupted, by simp [decodeCustom, hrt, hdc]⟩
    · exact ⟨out, none, by simp [decodeCustom, hrt, hdc]⟩

/-- The guard of the `default` case keeps the index within `decTables`, also
when `len(decTables)` does not fit a byte. -/
theorem static_index_in_range {σ δ : Type} (E : Env σ δ) (t : Byte)
    (h : ¬ (t.val ≥ E.decTables.length % 256)) : t.val < E.decTables.length :=
  lt_of_lt_of_le (not_le.mp h) (Nat.mod_le _ _)

/-- The static-dictionary body returns: `decTables[table]` is in range. -/
theorem decodeStatic_returns {σ δ : Type} (E : Env σ δ) (t : Byte) (data : List Byte) :
    ∃ name err, decodeStatic E t data = .ret name err := by
  unfold decodeStatic
  by_cases hr : t.val ≥ E.decTables.length % 256
  · rw [if_pos hr]
    exact ⟨_, _, rfl⟩
  · rw [if_neg hr]
    have hlt := static_index_in_range E t hr
    rcases hslot : E.decTables.get? t.val with _ | _ | dec
    · rw [List.get?_eq_none] at hslot
      omega
    · exact ⟨_, _, rfl⟩
    · simp only
      rcases hdc : E.decoderDecompress1X dec E.maxLength data with _ | out
      · exact ⟨_, _, rfl⟩
      · simp only
        split_ifs
        · exact ⟨_, _, rfl⟩
        · exact ⟨_, _, rfl⟩

/-- A call of `DecodeBytes` returns a result pair, unless it is a custom-table
call that finds the mutex held and waits. -/
theorem DecodeBytes_returns {σ δ : Type} (E : Env σ δ) (hmax : E.maxLength < 2 ^ 63)
    (st : State σ) (t : Byte) (data : List Byte) :
    (st.customDecMu = true ∧ DecodeBytes E st t data = none) ∨
      ∃ name err st', DecodeBytes E st t data = some (.ret name err, st') := by
  unfold DecodeBytes
  split_ifs with h1 h2 h3 h4 h5 h6
  · exact Or.inr ⟨_, _, _, rfl⟩
  · exact Or.inr ⟨_, _, _, rfl⟩
  · exact Or.inr ⟨_, _, _, rfl⟩
  · obtain ⟨name, err, h⟩ := decodeRLE_returns E.maxLength hmax data
    exact Or.inr ⟨name, err, st, by rw [h]⟩
  · exact Or.inl ⟨h6, rfl⟩
  · obtain ⟨name, err, h⟩ := decodeCustom_returns E st.customDec data
    exact Or.inr ⟨name, err,
      { customDec := (decodeCustom E st.customDec data).2, customDecMu := false },
      by simp only [h]⟩
  · obtain ⟨name, err, h⟩ := decodeStatic_returns E t data
    exact Or.inr ⟨name, err, st, by rw [h]⟩

theorem byte_pred_val (x : Byte) (h : x ≠ 0) : (x - 1).val + 1 = x.val := by
  have hx := x.isLt
  have h0 : x.val ≠ 0 := fun hv => h (Fin.ext hv)
  rw [Fin.sub_def]
  simp only [Fin.val_mk, Fin.val_one]
  omega

/-- A call of `Decode` returns a result pair, unless it waits for the mutex. -/
theorem Decode_returns {σ δ : Type} (E : Env σ δ) (hmax : E.maxLength < 2 ^ 63)
    (st : State σ) (s : List Byte) :
    (st.customDecMu = true ∧ Decode E st s = none) ∨
      ∃ name err st', Decode E st s = some (.ret name err, st') := by
  cases s with
  | nil => exact Or.inr ⟨[], some .ErrCorrupted, st, by simp [Decode]⟩
  | cons c rest =>
    by_cases h0 : E.decodeMap c = 0
    · exact Or.inr ⟨[], some .ErrCorrupted, st, by simp [Decode, h0]⟩
    · rw [Decode_cons E st c rest (E.decodeMap c - 1) (byte_pred_val _ h0).symm]
      split_ifs
      · exact Or.inr ⟨_, _, _, rfl⟩
      · exact DecodeBytes_returns E hmax st _ _

/-! ## Concurrent callers: the lock isolates each call -/

theorem get?_set_cases {α : Type} (l : List α) (i j : Nat) (a c' : α)
    (hj : (l.set i a).get? j = some c') :
    (j = i ∧ c' = a) ∨ (j ≠ i ∧ l.get? j = some c') := by
  by_cases hji : j = i
  · subst hji
    rw [List.get?_set_eq] at hj
    cases hl : l.get? j with
    | none => rw [hl] at hj; simp at hj
    | some x =>
      rw [hl] at hj
      simp only [Option.map_eq_map, Option.map_some', Option.some.injEq] at hj
      exact Or.inl ⟨rfl, hj.symm⟩
  · rw [List.get?_set_ne _ _ (Ne.symm hji)] at hj
    exact Or.inr ⟨hji, hj⟩

theorem get?_set_self_of_get? {α : Type} (l : List α) (i : Nat) (a c : α)
    (hi : l.get? i = some c) : (l.set i a).get? i = some a := by
  rw [List.get?_set_eq, hi]
  rfl

/-- A step leaves the payload of the caller as it was. -/
theorem stepCaller_payload {σ δ : Type} (E : Env σ δ) (d : Scratch σ) (mu : Bool) (c : Caller)
    (d' : Scratch σ) (mu' : Bool) (c' : Caller)
    (h : stepCaller E d mu c = some (d', mu', c')) : c'.payload = c.payload := by
  unfold stepCaller at h
  split at h
  · split_ifs at h
    simp only [Option.some.injEq, Prod.mk.injEq] at h
    rw [← h.2.2]
  · split at h <;> simp only [Option.some.injEq, Prod.mk.injEq] at h <;> rw [← h.2.2]
  · simp only [Option.some.injEq, Prod.mk.injEq] at h
    rw [← h.2.2]
  · split at h <;> simp only [Option.some.injEq, Prod.mk.injEq] at h <;> rw [← h.2.2]
  · simp only [Option.some.injEq, Prod.mk.injEq] at h
    rw [← h.2.2]
  · simp at h

/-- What a step does to the mutex: a caller outside takes the free mutex and is
inside after; a caller inside stays inside with the mutex as it was, or it
unlocks and has returned. -/
theorem stepCaller_mutex {σ δ : Type} (E : Env σ δ) (d : Scratch σ) (mu : Bool) (c : Caller)
    (d' : Scratch σ) (mu' : Bool) (c' : Caller)
    (h : stepCaller E d mu c = some (d', mu', c')) :
    (c.pc.inside = false ∧ mu = false ∧ mu' = true ∧ d' = d ∧ c'.pc.inside = true) ∨
      (c.pc.inside = true ∧ mu' = mu ∧ c'.pc.inside = true) ∨
      (c.pc.inside = true ∧ mu' = false ∧ d' = d ∧ c'.pc.inside = false) := by
  unfold stepCaller at h
  split at h
  · rename_i hpc
    split_ifs at h with hmu
    simp only [Option.some.injEq, Prod.mk.injEq] at h
    obtain ⟨h1, h2, h3⟩ := h
    refine Or.inl ⟨by rw [hpc]; rfl, by simpa using hmu, h2.symm, h1.symm, by rw [← h3]; rfl⟩
  · rename_i hpc
    split at h <;> simp only [Option.some.injEq, Prod.mk.injEq] at h <;>
      exact Or.inr (Or.inl ⟨by rw [hpc]; rfl, h.2.1.symm, by rw [← h.2.2]; rfl⟩)
  · rename_i body hpc
    simp only [Option.some.injEq, Prod.mk.injEq] at h
    exact Or.inr (Or.inl ⟨by rw [hpc]; rfl, h.2.1.symm, by rw [← h.2.2]; rfl⟩)
  · rename_i body hpc
    split at h <;> simp only [Option.some.injEq, Prod.mk.injEq] at h <;>
      exact Or.inr (Or.inl ⟨by rw [hpc]; rfl, h.2.1.symm, by rw [← h.2.2]; rfl⟩)
  · rename_i r hpc
    simp only [Option.some.injEq, Prod.mk.injEq] at h
    exact Or.inr (Or.inr ⟨by rw [hpc]; rfl, h.2.1.symm, h.1.symm, by rw [← h.2.2]; rfl⟩)
  · simp at h

/-- A step keeps what is known of the caller that takes it. -/
theorem stepCaller_ok {σ δ : Type} (E : Env σ δ) (d : Scratch σ) (mu : Bool) (c : Caller)
    (d' : Scratch σ) (mu' : Bool) (c' : Caller)
    (h : stepCaller E d mu c = some (d', mu', c')) (hok : CallerOk E d c) :
    CallerOk E d' c' := by
  unfold stepCaller at h
  split at h
  · split_ifs at h
    simp only [Option.some.injEq, Prod.mk.injEq] at h
    rw [← h.2.2]
    simp [CallerOk]
  · split at h
    · rename_i dec e hrt
      simp only [Option.some.injEq, Prod.mk.injEq] at h
      rw [← h.2.2, ← h.1]
      exact ⟨d, by simp [decodeCustom, hrt]⟩
    · rename_i dec body hrt
      simp only [Option.some.injEq, Prod.mk.injEq] at h
      rw [← h.2.2, ← h.1]
      exact ⟨d, hrt⟩
  · rename_i body hpc
    simp only [Option.some.injEq, Prod.mk.injEq] at h
    simp only [CallerOk, hpc] at hok
    obtain ⟨d0, hrt⟩ := hok
    rw [← h.2.2, ← h.1]
    exact ⟨d0, d, hrt, rfl⟩
  · rename_i body hpc
    simp only [CallerOk, hpc] at hok
    obtain ⟨d0, dec, hrt, hd⟩ := hok
    subst hd
    split at h
    · rename_i dec2 e hdc
      simp only [Option.some.injEq, Prod.mk.injEq] at h
      rw [← h.2.2, ← h.1]
      exact ⟨d0, by simp [decodeCustom, hrt, hdc]⟩
    · rename_i dec2 out hdc
      simp only [Option.some.injEq, Prod.mk.injEq] at h
      rw [← h.2.2, ← h.1]
      exact ⟨d0, by simp [decodeCustom, hrt, hdc]⟩
  · rename_i r hpc
    simp only [Option.some.injEq, Prod.mk.injEq] at h
    simp only [CallerOk, hpc] at hok
    obtain ⟨d0, hdc⟩ := hok
    rw [← h.2.2]
    exact ⟨d0, by simp [hdc]⟩
  · simp at h

/-- What is known of a caller outside the lock does not depend on the scratch
decoder. -/
theorem CallerOk_outside {σ δ : Type} (E : Env σ δ) (d d' : Scratch σ) (c : Caller)
    (hout : c.pc.inside = false) (hok : CallerOk E d c) : CallerOk E d' c := by
  unfold CallerOk at hok ⊢
  cases hpc : c.pc with
  | start => simp
  | done r => simpa [hpc] using hok
  | locked => rw [hpc] at hout; simp [Pc.inside] at hout
  | parsed b => rw [hpc] at hout; simp [Pc.inside] at hout
  | sized b => rw [hpc] at hout; simp [Pc.inside] at hout
  | returning r => rw [hpc] at hout; simp [Pc.inside] at hout

/-- The invariant holds before any step. -/
theorem Inv_initial {σ δ : Type} (E : Env σ δ) (d : Scratch σ) (payloads : List (List Byte)) :
    Inv E payloads (initial d payloads) := by
  have hstart : ∀ i c, (initial d payloads).callers.get? i = some c → c.pc = .start := by
    intro i c h
    simp only [initial, List.get?_map] at h
    cases hp : payloads.get? i with
    | none => rw [hp] at h; simp at h
    | some p =>
      rw [hp] at h
      simp only [Option.map_some', Option.some.injEq] at h
      rw [← h]
  refine ⟨?_, fun i c h => ?_, fun _ i c h => ?_, fun h => ?_⟩
  · simp [initial, List.map_map, Function.comp_def]
  · simp [CallerOk, hstart i c h]
  · rw [hstart i c h]; rfl
  · simp [initial] at h

/-- A step keeps the invariant. -/
theorem Inv_step {σ δ : Type} (E : Env σ δ) (payloads : List (List Byte)) (s s' : System σ)
    (i : Nat) (hs : step E s i = some s') (hinv : Inv E payloads s) : Inv E payloads s' := by
  unfold step at hs
  cases hget : s.callers.get? i with
  | none => rw [hget] at hs; simp at hs
  | some c =>
    rw [hget] at hs
    simp only at hs
    cases hsc : stepCaller E s.customDec s.customDecMu c with
    | none => rw [hsc] at hs; simp at hs
    | some res =>
      obtain ⟨d', mu', c'⟩ := res
      rw [hsc] at hs
      simp only [Option.some.injEq] at hs
      subst hs
      have hpay := stepCaller_payload E _ _ _ _ _ _ hsc
      have hmut := stepCaller_mutex E _ _ _ _ _ _ hsc
      have hok' := stepCaller_ok E _ _ _ _ _ _ hsc (hinv.ok i c hget)
      have hself := get?_set_self_of_get? s.callers i c' c hget
      -- a caller inside the lock is caller `i` when `c` is inside
      have huniq : c.pc.inside = true → ∀ j cj, s.callers.get? j = some cj →
          cj.pc.inside = true → j = i := by
        intro hin j cj hj hjin
        cases hmu : s.customDecMu with
        | false => rw [hinv.free hmu i c hget] at hin; simp at hin
        | true =>
          obtain ⟨k, ck, -, -, hk⟩ := hinv.held hmu
          rw [hk j cj hj hjin, hk i c hget hin]
      have hmuheld : c.pc.inside = true → s.customDecMu = true := by
        intro hin
        cases hmu : s.customDecMu with
        | false => rw [hinv.free hmu i c hget] at hin; simp at hin
        | true => rfl
      refine ⟨?_, ?_, ?_, ?_⟩
      · -- payloads
        have h1 := hinv.payloads_eq
        simp only [List.map_set, hpay]
        rw [← h1]
        apply List.ext_get?
        intro j
        by_cases hji : i = j
        · subst hji
          rw [List.get?_set_eq, List.get?_map, hget]
          rfl
        · rw [List.get?_set_ne _ _ hji]
      · -- what is known of each caller
        intro j cj hj
        rcases get?_set_cases _ _ _ _ _ hj with ⟨-, rfl⟩ | ⟨hne, hold⟩
        · exact hok'
        · have hokj := hinv.ok j cj hold
          rcases hmut with ⟨-, -, -, hd, -⟩ | ⟨hin, -, -⟩ | ⟨-, -, hd, -⟩
          · simp only [hd]; exact hokj
          · have hout : cj.pc.inside = false := by
              cases hjin : cj.pc.inside with
              | false => rfl
              | true => exact absurd (huniq hin j cj hold hjin) hne
            exact CallerOk_outside E _ _ cj hout hokj
          · simp only [hd]; exact hokj
      · -- the mutex is free
        intro hfree j cj hj
        simp only at hfree
        rcases hmut with ⟨-, -, hmu', -, -⟩ | ⟨hin, hmu', -⟩ | ⟨hin, -, -, hout'⟩
        · rw [hmu'] at hfree; simp at hfree
        · rw [hmu', hmuheld hin] at hfree; simp at hfree
        · rcases get?_set_cases _ _ _ _ _ hj with ⟨-, rfl⟩ | ⟨hne, hold⟩
          · exact hout'
          · cases hjin : cj.pc.inside with
            | false => rfl
            | true => exact absurd (huniq hin j cj hold hjin) hne
      · -- the mutex is held
        intro hheld
        simp only at hheld
        rcases hmut with ⟨-, hmu, -, -, hin'⟩ | ⟨hin, -, hin'⟩ | ⟨-, hmu', -, -⟩
        · refine ⟨i, c', hself, hin', fun j cj hj hjin => ?_⟩
          rcases get?_set_cases _ _ _ _ _ hj with ⟨hji, -⟩ | ⟨-, hold⟩
          · exact hji
          · rw [hinv.free hmu j cj hold] at hjin; simp at hjin
        · refine ⟨i, c', hself, hin', fun j cj hj hjin => ?_⟩
          rcases get?_set_cases _ _ _ _ _ hj with ⟨hji, -⟩ | ⟨-, hold⟩
          · exact hji
          · exact huniq hin j cj hold hjin
        · rw [hmu'] at hheld; simp at hheld

/-- Every interleaving keeps the invariant. -/
theorem Inv_run {σ δ : Type} (E : Env σ δ) (payloads : List (List Byte)) (schedule : List Nat) :
    ∀ s : System σ, Inv E payloads s → Inv E payloads (run E s schedule) := by
  induction schedule with
  | nil => intro s h; exact h
  | cons i rest ih =>
    intro s h
    simp only [run]
    cases hs : step E s i with
    | none => exact ih s h
    | some s' => exact ih s' (Inv_step E payloads s s' i hs h)

/-- A caller between `Lock` and `Unlock` can always take its next step. -/
theorem stepCaller_inside {σ δ : Type} (E : Env σ δ) (d : Scratch σ) (mu : Bool) (c : Caller)
    (hin : c.pc.inside = true) : (stepCaller E d mu c).isSome := by
  unfold stepCaller
  cases hpc : c.pc with
  | start => rw [hpc] at hin; simp [Pc.inside] at hin
  | done r => rw [hpc] at hin; simp [Pc.inside] at hin
  | locked =>
    simp only
    rcases hrt : E.readTable c.payload d with ⟨dec, _ | body⟩ <;> simp
  | parsed b => simp
  | sized b =>
    simp only
    rcases hdc : E.scratchDecompress1X d b with ⟨dec, _ | out⟩ <;> simp
  | returning r => simp

/-- A caller that has not started can take the mutex when it is free. -/
theorem stepCaller_start {σ δ : Type} (E : Env σ δ) (d : Scratch σ) (c : Caller)
    (hout : c.pc.inside = false) (hnd : ∀ r, c.pc ≠ .done r) :
    (stepCaller E d false c).isSome := by
  unfold stepCaller
  cases hpc : c.pc with
  | start => simp
  | done r => exact absurd hpc (hnd r)
  | locked => rw [hpc] at hout; simp [Pc.inside] at hout
  | parsed b => rw [hpc] at hout; simp [Pc.inside] at hout
  | sized b => rw [hpc] at hout; simp [Pc.inside] at hout
  | returning r => rw [hpc] at hout; simp [Pc.inside] at hout

theorem step_isSome {σ δ : Type} (E : Env σ δ) (s : System σ) (i : Nat) (c : Caller)
    (hget : s.callers.get? i = some c)
    (h : (stepCaller E s.customDec s.customDecMu c).isSome) : (step E s i).isSome := by
  unfold step
  rw [hget]
  obtain ⟨res, hres⟩ := Option.isSome_iff_exists.mp h
  simp [hres]

/-- One caller alone, taking its five steps, ends with the result and the
scratch decoder of `decodeCustom`, the mutex free. -/
theorem run_alone {σ δ : Type} (E : Env σ δ) (d : Scratch σ) (p : List Byte) :
    run E (initial d [p]) [0, 0, 0, 0, 0] =
      { customDec := (decodeCustom E d p).2, customDecMu := false,
        callers := [{ payload := p, pc := .done (decodeCustom E d p).1 }] } := by
  rcases hrt : E.readTable p d with ⟨dec, _ | body⟩
  · simp [run, step, stepCaller, initial, decodeCustom, hrt]
  · rcases hdc : E.scratchDecompress1X { dec with MaxDecodedSize := E.maxLength } body
      with ⟨dec2, _ | out⟩
    · simp [run, step, stepCaller, initial, decodeCustom, hrt, hdc]
    · simp [run, step, stepCaller, initial, decodeCustom, hrt, hdc]


/-- C14: for every number of callers of `DecodeBytes(tableCustom, ...)`, every
payloads and every interleaving of their statements: a caller that has
returned has the result of the custom-table case run on its own payload alone
(`decodeCustom` from the scratch decoder it found when it took the lock); no
two callers are between `Lock` and `Unlock`; as long as a caller has not
returned, some caller can move; one caller alone ends with the result of
`decodeCustom`; and when that result does not depend on what an earlier call
left in the scratch decoder, every caller returns what `DecodeBytes` returns
for its payload when called alone. -/
theorem custom_callers_isolated {σ δ : Type} (E : Env σ δ) (d0 : Scratch σ)
    (payloads : List (List Byte)) (schedule : List Nat) :
    (∀ i c r, (run E (initial d0 payloads) schedule).callers.get? i = some c →
        c.pc = .done r →
        payloads.get? i = some c.payload ∧ ∃ d, (decodeCustom E d c.payload).1 = r) ∧
      (∀ i j ci cj, (run E (initial d0 payloads) schedule).callers.get? i = some ci →
        (run E (initial d0 payloads) schedule).callers.get? j = some cj →
        ci.pc.inside = true → cj.pc.inside = true → i = j) ∧
      ((∃ i c, (run E (initial d0 payloads) schedule).callers.get? i = some c ∧
          ∀ r, c.pc ≠ .done r) →
        ∃ i, (step E (run E (initial d0 payloads) schedule) i).isSome) ∧
      (∀ p, run E (initial d0 [p]) [0, 0, 0, 0, 0] =
        { customDec := (decodeCustom E d0 p).2, customDecMu := false,
          callers := [{ payload := p, pc := .done (decodeCustom E d0 p).1 }] }) ∧
      ((∀ p d1 d2, (decodeCustom E d1 p).1 = (decodeCustom E d2 p).1) → E.WellFormed →
        ∀ i c r (st : State σ),
          (run E (initial d0 payloads) schedule).callers.get? i = some c →
          c.pc = .done r → st.customDecMu = false →
          (DecodeBytes E st E.tableCustom c.payload).map Prod.fst = some r) := by
  have hinv := Inv_run E payloads schedule _ (Inv_initial E d0 payloads)
  have hdone : ∀ i c r, (run E (initial d0 payloads) schedule).callers.get? i = some c →
      c.pc = .done r →
      payloads.get? i = some c.payload ∧ ∃ d, (decodeCustom E d c.payload).1 = r := by
    intro i c r hget hpc
    constructor
    · rw [← hinv.payloads_eq, List.get?_map, hget]
      rfl
    · have hok := hinv.ok i c hget
      simpa [CallerOk, hpc] using hok
  refine ⟨hdone, ?_, ?_, fun p => run_alone E d0 p, ?_⟩
  · intro i j ci cj hi hj hiin hjin
    cases hmu : (run E (initial d0 payloads) schedule).customDecMu with
    | false => rw [hinv.free hmu i ci hi] at hiin; simp at hiin
    | true =>
      obtain ⟨k, ck, -, -, hk⟩ := hinv.held hmu
      rw [hk i ci hi hiin, hk j cj hj hjin]
  · rintro ⟨i, c, hget, hnd⟩
    cases hmu : (run E (initial d0 payloads) schedule).customDecMu with
    | false =>
      refine ⟨i, step_isSome E _ i c hget ?_⟩
      rw [hmu]
      exact stepCaller_start E _ c (hinv.free hmu i c hget) hnd
    | true =>
      obtain ⟨k, ck, hk, hkin, -⟩ := hinv.held hmu
      exact ⟨k, step_isSome E _ k ck hk (stepCaller_inside E _ _ ck hkin)⟩
  · intro hindep hE i c r st hget hpc hfree
    obtain ⟨-, d, hd⟩ := hdone i c r hget hpc
    rw [DecodeBytes_tableCustom E hE st hfree, ← hd, hindep c.payload d st.customDec]
    rfl

/-- C14 in an environment whose scratch decoder carries the table: two callers
with the tables `10` and `20` take their steps in turn, the second waiting in
`Lock` while the first is inside; each returns its own body plus its own
table. -/
theorem custom_callers_isolated_witness :
    (run tableEnv (initial { MaxDecodedSize := 0, dt := [] } [[10, 1], [20, 1]])
        [0, 1, 0, 1, 0, 1, 0, 1, 0, 1, 1, 1, 1, 1]).callers =
      [{ payload := [10, 1], pc := .done (.ret [11] none) },
        { payload := [20, 1], pc := .done (.ret [21] none) }] ∧
      ∃ d, (decodeCustom tableEnv d [20, 1]).1 = .ret [21] none :=
  ⟨by decide,
    ((custom_callers_isolated tableEnv { MaxDecodedSize := 0, dt := [] } [[10, 1], [20, 1]]
      [0, 1, 0, 1, 0, 1, 0, 1, 0, 1, 1, 1, 1, 1]).1 1
      { payload := [20, 1], pc := .done (.ret [21] none) } (.ret [21] none) (by decide) rfl).2⟩

/-! ## The decoded length fits the buffer -/

theorem quantumBytes_length (dbuf : List Byte) (dlen : Nat) :
    (quantumBytes dbuf dlen).length ≤ 3 := by
  simp only [quantumBytes, List.length_take, List.length_cons, List.length_nil]
  omega

/-- A round of `decodeQuantum` writes at most three bytes, and writes any only
when the quantum has its four characters. -/
theorem decodeQuantumLoop_out (src : List Byte) :
    ∀ (j : Nat) (dbuf : List Byte),
      (decodeQuantumLoop src j dbuf).out.length ≤ 3 ∧
        ((decodeQuantumLoop src j dbuf).out ≠ [] →
          4 ≤ j + (src.length - (decodeQuantumLoop src j dbuf).rest.length)) := by
  induction src with
  | nil => intro j dbuf; simp only [decodeQuantumLoop]; split <;> simp
  | cons c rest ih =>
    intro j dbuf
    have hs := skipNewlines_length rest
    have hrest := decodeQuantumLoop_rest rest
    simp only [decodeQuantumLoop, List.length_cons]
    split_ifs with h1 h2 h3 h4 h5 h6
    · obtain ⟨ha, hb⟩ := ih (j + 1) (dbuf.set j (urlDecodeMap c))
      have hr := hrest (j + 1) (dbuf.set j (urlDecodeMap c))
      exact ⟨ha, fun hne => by have := hb hne; omega⟩
    · exact ⟨quantumBytes_length _ _, fun _ => by simp only []; omega⟩
    · obtain ⟨ha, hb⟩ := ih j dbuf
      have hr := hrest j dbuf
      exact ⟨ha, fun hne => by have := hb hne; omega⟩
    · simp
    · simp
    · split
      · simp
      · rename_i c2 rest2 heq
        rw [heq] at hs
        have h2 := skipNewlines_length rest2
        simp only [List.length_cons] at hs
        split_ifs
        · simp
        · exact ⟨quantumBytes_length _ _, fun _ => by simp only []; omega⟩
    · refine ⟨quantumBytes_length _ _, fun _ => ?_⟩
      simp only []
      have hj : 3 ≤ j := by
        by_contra hlt
        have : j = 0 ∨ j = 1 ∨ j = 2 := by omega
        rcases this with h | h | h
        · exact h5 (Or.inl h)
        · exact h5 (Or.inr h)
        · exact h6 h
      omega

/-- The decoding loop writes at most three bytes for every four characters. -/
theorem base64DecodeLoop_length (fuel : Nat) :
    ∀ (src dst res : List Byte) (e : Bool) (k : Nat),
      base64DecodeLoop fuel src dst = some (res, e) → dst.length ≤ 3 * k →
      ∃ q, res.length ≤ 3 * q ∧ 4 * q ≤ 4 * k + src.length := by
  induction fuel with
  | zero =>
    intro src dst res e k h hk
    cases src with
    | nil =>
      simp only [base64DecodeLoop, Option.some.injEq, Prod.mk.injEq] at h
      exact ⟨k, by rw [← h.1]; exact hk, by omega⟩
    | cons c rest => simp [base64DecodeLoop] at h
  | succ f ih =>
    intro src dst res e k h hk
    cases src with
    | nil =>
      simp only [base64DecodeLoop, Option.some.injEq, Prod.mk.injEq] at h
      exact ⟨k, by rw [← h.1]; exact hk, by omega⟩
    | cons c rest =>
      simp only [base64DecodeLoop] at h
      obtain ⟨hout, hfour⟩ := decodeQuantumLoop_out (c :: rest) 0 [0, 0, 0, 0]
      have hr := decodeQuantumLoop_rest (c :: rest) 0 [0, 0, 0, 0]
      have hq : decodeQuantum (c :: rest) = decodeQuantumLoop (c :: rest) 0 [0, 0, 0, 0] := rfl
      rw [hq] at h
      simp only [List.length_cons, Nat.add_sub_cancel] at hr hfour
      by_cases hempty : (decodeQuantumLoop (c :: rest) 0 [0, 0, 0, 0]).out = []
      · -- nothing written in this round
        rw [hempty, List.append_nil] at h
        split_ifs at h
        · simp only [Option.some.injEq, Prod.mk.injEq] at h
          exact ⟨k, by rw [← h.1]; exact hk, by omega⟩
        · obtain ⟨q, h1, h2⟩ := ih _ dst res e k h hk
          exact ⟨q, h1, by simp only [List.length_cons]; omega⟩
      · have h4 := hfour hempty
        have hlen : (dst ++ (decodeQuantumLoop (c :: rest) 0 [0, 0, 0, 0]).out).length
            ≤ 3 * (k + 1) := by
          simp only [List.length_append]; omega
        split_ifs at h
        · simp only [Option.some.injEq, Prod.mk.injEq] at h
          exact ⟨k + 1, by rw [← h.1]; exact hlen, by simp only [List.length_cons]; omega⟩
        · obtain ⟨q, h1, h2⟩ := ih _ _ res e (k + 1) h hlen
          exact ⟨q, h1, by simp only [List.length_cons]; omega⟩

/-- The bytes `base64.URLEncoding.Decode` writes fit a buffer of
`DecodedLen(len(src))` bytes. -/
theorem base64Decode_length (src : List Byte) :
    (base64Decode src).1.length ≤ src.length / 4 * 3 := by
  have h := base64Decode_spec src
  obtain ⟨q, h1, h2⟩ := base64DecodeLoop_length src.length src [] (base64Decode src).1
    (base64Decode src).2 0 h (by simp)
  have hq : q ≤ src.length / 4 := by omega
  calc (base64Decode src).1.length ≤ 3 * q := h1
    _ ≤ src.length / 4 * 3 := by omega

/-! ## The logs go with the code -/

theorem decodeRLELog_fst (m : Nat) (data : List Byte) :
    (decodeRLELog m data).1 = decodeRLE m data := by
  unfold decodeRLELog decodeRLE
  split_ifs with h1
  · rfl
  · cases slice data 0 ((data.length : Int) - 1) with
    | none => rfl
    | some head =>
      simp only
      split_ifs with h2
      · rfl
      · cases slice data ((data.length : Int) - 1) (data.length : Int) with
        | none => rfl
        | some last =>
          simp only
          cases bytesRepeat last (uint64ToInt (Uvarint head).1) with
          | none => rfl
          | some name => rfl

theorem decodeStaticLog_fst {σ δ : Type} (E : Env σ δ) (t : Byte) (data : List Byte) :
    (decodeStaticLog E t data).1 = decodeStatic E t data := by
  unfold decodeStaticLog decodeStatic
  by_cases h1 : t.val ≥ E.decTables.length % 256
  · rw [if_pos h1, if_pos h1]
  · rw [if_neg h1, if_neg h1]
    rcases E.decTables.get? t.val with _ | _ | dec
    · rfl
    · rfl
    · simp only
      cases E.decoderDecompress1X dec E.maxLength data with
      | error e => rfl
      | ok name =>
        simp only
        by_cases h2 : t = E.tableSCSU
        · rw [if_pos h2, if_pos h2]
        · rw [if_neg h2, if_neg h2]

theorem DecodeBytesLog_fst {σ δ : Type} (E : Env σ δ) (st : State σ) (t : Byte)
    (data : List Byte) : (DecodeBytesLog E st t data).1 = DecodeBytes E st t data := by
  unfold DecodeBytesLog DecodeBytes
  split_ifs
  · rfl
  · rfl
  · rfl
  · simp only [decodeRLELog_fst]
  · rfl
  · rfl
  · simp only [decodeStaticLog_fst]

theorem DecodeLog_fst {σ δ : Type} (E : Env σ δ) (st : State σ) (s : List Byte) :
    (DecodeLog E st s).1 = Decode E st s := by
  unfold DecodeLog Decode
  split_ifs with h1
  · rfl
  · cases s.get? 0 with
    | none => rfl
    | some c =>
      simp only
      split_ifs with h2
      · rfl
      · cases slice s 1 (s.length : Int) with
        | none => rfl
        | some s2 =>
          simp only
          split_ifs with h3
          · rfl
          · exact DecodeBytesLog_fst E st _ _

/-! ## Every logged operation is in range -/

theorem decodeRLELog_inRange (m : Nat) (hm : m < 2 ^ 63) (data : List Byte) :
    ∀ op ∈ (decodeRLELog m data).2, op.InRange m := by
  unfold decodeRLELog
  split_ifs with h1
  · simp
  · have hs1 : (Op.slice 0 ((data.length : Int) - 1) (data.length : Int)).InRange m := by
      simp only [Op.InRange]; omega
    have hs2 : (Op.slice ((data.length : Int) - 1) (data.length : Int)
        (data.length : Int)).InRange m := by
      simp only [Op.InRange]; omega
    cases slice data 0 ((data.length : Int) - 1) with
    | none =>
      intro op hop
      simp only [List.mem_singleton] at hop
      rw [hop]; exact hs1
    | some head =>
      simp only
      split_ifs with h2
      · intro op hop
        simp only [List.mem_singleton] at hop
        rw [hop]; exact hs1
      · have hle : (Uvarint head).1 ≤ m := not_lt.mp (not_or.mp h2).2
        have hn : (Uvarint head).1 < 2 ^ 63 := by omega
        have ht : (Op.toInt (Uvarint head).1).InRange m := hn
        have hc : (Op.repeatCount (uint64ToInt (Uvarint head).1)).InRange m := by
          simp only [Op.InRange]
          rw [uint64ToInt_of_lt _ hn]
          exact ⟨by omega, by exact_mod_cast hle⟩
        cases slice data ((data.length : Int) - 1) (data.length : Int) with
        | none =>
          intro op hop
          simp only [List.mem_append, List.mem_singleton, List.mem_cons, List.not_mem_nil,
            or_false] at hop
          rcases hop with h | h <;> rw [h] <;> assumption
        | some last =>
          simp only
          have hall : ∀ op ∈ [Op.slice 0 ((data.length : Int) - 1) (data.length : Int)] ++
              [Op.slice ((data.length : Int) - 1) (data.length : Int) (data.length : Int)] ++
              [Op.toInt (Uvarint head).1, Op.repeatCount (uint64ToInt (Uvarint head).1)],
              op.InRange m := by
            intro op hop
            simp only [List.mem_append, List.mem_singleton, List.mem_cons, List.not_mem_nil,
              or_false] at hop
            rcases hop with (h | h) | h | h <;> rw [h] <;> assumption
          cases bytesRepeat last (uint64ToInt (Uvarint head).1) with
          | none => exact hall
          | some name => exact hall

theorem decodeStaticLog_inRange {σ δ : Type} (E : Env σ δ) (t : Byte) (data : List Byte) :
    ∀ op ∈ (decodeStaticLog E t data).2, op.InRange E.maxLength := by
  unfold decodeStaticLog
  by_cases h1 : t.val ≥ E.decTables.length % 256
  · rw [if_pos h1]
    simp
  · rw [if_neg h1]
    have hlt := static_index_in_range E t h1
    have hi : (Op.index (t.val : Int) (E.decTables.length : Int)).InRange E.maxLength := by
      simp only [Op.InRange]; omega
    have hs : (Op.slice 0 0 (E.maxLength : Int)).InRange E.maxLength := by
      simp only [Op.InRange]; omega
    have hall : ∀ op ∈ [Op.index (t.val : Int) (E.decTables.length : Int)] ++
        [Op.slice 0 0 (E.maxLength : Int)], op.InRange E.maxLength := by
      intro op hop
      simp only [List.mem_append, List.mem_singleton] at hop
      rcases hop with h | h <;> rw [h] <;> assumption
    have hone : ∀ op ∈ [Op.index (t.val : Int) (E.decTables.length : Int)],
        op.InRange E.maxLength := by
      intro op hop
      simp only [List.mem_singleton] at hop
      rw [hop]; exact hi
    rcases E.decTables.get? t.val with _ | _ | dec
    · exact hone
    · exact hone
    · simp only
      cases E.decoderDecompress1X dec E.maxLength data with
      | error e => exact hall
      | ok name =>
        simp only
        by_cases h2 : t = E.tableSCSU
        · rw [if_pos h2]; exact hall
        · rw [if_neg h2]; exact hall

theorem DecodeBytesLog_inRange {σ δ : Type} (E : Env σ δ) (hmax : E.maxLength < 2 ^ 63)
    (st : State σ) (t : Byte) (data : List Byte) :
    ∀ op ∈ (DecodeBytesLog E st t data).2, op.InRange E.maxLength := by
  unfold DecodeBytesLog
  split_ifs
  · simp
  · simp
  · simp
  · exact decodeRLELog_inRange E.maxLength hmax data
  · simp
  · simp
  · exact decodeStaticLog_inRange E t data

theorem DecodeLog_inRange {σ δ : Type} (E : Env σ δ) (hmax : E.maxLength < 2 ^ 63)
    (st : State σ) (s : List Byte) :
    ∀ op ∈ (DecodeLog E st s).2, op.InRange E.maxLength := by
  unfold DecodeLog
  split_ifs with h1
  · simp
  · have hlen : 1 ≤ s.length := by omega
    have hi : (Op.index 0 (s.length : Int)).InRange E.maxLength := by
      simp only [Op.InRange]; omega
    have hone : ∀ op ∈ [Op.index 0 (s.length : Int)], op.InRange E.maxLength := by
      intro op hop
      simp only [List.mem_singleton] at hop
      rw [hop]; exact hi
    cases s.get? 0 with
    | none => exact hone
    | some c =>
      simp only
      split_ifs with h2
      · exact hone
      · have hd : (Op.decrement (E.decodeMap c).val).InRange E.maxLength := by
          simp only [Op.InRange]
          have : (E.decodeMap c).val ≠ 0 := fun hv => h2 (Fin.ext hv)
          omega
        have hsl : (Op.slice 1 (s.length : Int) (s.length : Int)).InRange E.maxLength := by
          simp only [Op.InRange]; omega
        have htwo : ∀ op ∈ [Op.index 0 (s.length : Int)] ++
            [Op.decrement (E.decodeMap c).val, Op.slice 1 (s.length : Int) (s.length : Int)],
            op.InRange E.maxLength := by
          intro op hop
          simp only [List.mem_append, List.mem_singleton, List.mem_cons, List.not_mem_nil,
            or_false] at hop
          rcases hop with h | h | h <;> rw [h] <;> assumption
        cases slice s 1 (s.length : Int) with
        | none => exact htwo
        | some s2 =>
          simp only
          split_ifs with h3
          · exact htwo
          · intro op hop
            simp only [List.mem_append, List.mem_singleton] at hop
            rcases hop with (h | h) | h
            · exact htwo op (List.mem_append.mpr (h.imp (fun e => List.mem_singleton.mpr e) id))
            · rw [h]
              simp only [Op.InRange]
              have := base64Decode_length s2
              exact ⟨le_refl _, by omega, by exact_mod_cast this⟩
            · exact DecodeBytesLog_inRange E hmax st _ _ op h

/-- C17: `Decode` and `DecodeBytes` are total. With `maxLength` an `int`, no
call ends in a panic, and with the mutex free every call returns a result
pair. Every operation the two functions perform is in range: the code with
its operations logged returns what `Decode` and `DecodeBytes` return, and every
logged operation is within its bounds. So `s[0]` and `s[1:]` are within
`len(s)`, `table--` is applied to a non-zero byte and does not wrap, `data[:n]`
is within the decoding buffer, `data[:len(data)-1]` and `data[len(data)-1:]`
are within `len(data)`, the count converted by `int(n)` and handed to
`bytes.Repeat` is between `0` and `maxLength`, and `decTables[table]` is within
`len(decTables)`, whatever that length is. -/
theorem Decode_DecodeBytes_total {σ δ : Type} (E : Env σ δ) (hmax : E.maxLength < 2 ^ 63)
    (st : State σ) :
    (∀ s st', Decode E st s ≠ some (.panic, st')) ∧
      (∀ t data st', DecodeBytes E st t data ≠ some (.panic, st')) ∧
      (st.customDecMu = false →
        (∀ s, ∃ name err st', Decode E st s = some (.ret name err, st')) ∧
        (∀ t data, ∃ name err st', DecodeBytes E st t data = some (.ret name err, st'))) ∧
      (∀ s, (DecodeLog E st s).1 = Decode E st s ∧
        ∀ op ∈ (DecodeLog E st s).2, op.InRange E.maxLength) ∧
      (∀ t data, (DecodeBytesLog E st t data).1 = DecodeBytes E st t data ∧
        ∀ op ∈ (DecodeBytesLog E st t data).2, op.InRange E.maxLength) := by
  refine ⟨fun s st' h => ?_, fun t data st' h => ?_, fun hfree => ⟨fun s => ?_, fun t data => ?_⟩,
    fun s => ⟨DecodeLog_fst E st s, DecodeLog_inRange E hmax st s⟩,
    fun t data => ⟨DecodeBytesLog_fst E st t data, DecodeBytesLog_inRange E hmax st t data⟩⟩
  · rcases Decode_returns E hmax st s with ⟨-, hn⟩ | ⟨name, err, st'', hr⟩
    · rw [hn] at h
      simp at h
    · rw [hr] at h
      simp at h
  · rcases DecodeBytes_returns E hmax st t data with ⟨-, hn⟩ | ⟨name, err, st'', hr⟩
    · rw [hn] at h
      simp at h
    · rw [hr] at h
      simp at h
  · rcases Decode_returns E hmax st s with ⟨hheld, -⟩ | hr
    · rw [hfree] at hheld
      simp at hheld
    · exact hr
  · rcases DecodeBytes_returns E hmax st t data with ⟨hheld, -⟩ | hr
    · rw [hfree] at hheld
      simp at hheld
    · exact hr

/-- C17 in the example environment: the string `"9BUE="` (run-length, count 5)
with the operations it performs, and inputs at the edges of the guards: the
empty string, a string whose first character is no selector, a one-byte
run-length payload, the largest count, and the last table id. -/
theorem Decode_DecodeBytes_total_witness :
    sampleEnv.maxLength < 2 ^ 63 ∧ sampleState.customDecMu = false ∧
      DecodeLog sampleEnv sampleState [57, 66, 85, 69, 61] =
        (some (.ret [0x41, 0x41, 0x41, 0x41, 0x41] none, sampleState),
          [.index 0 5, .decrement 62, .slice 1 5 5, .slice 0 2 3, .slice 0 1 2, .slice 1 2 2,
            .toInt 5, .repeatCount 5]) ∧
      (∀ op ∈ (DecodeLog sampleEnv sampleState [57, 66, 85, 69, 61]).2,
        op.InRange sampleEnv.maxLength) ∧
      DecodeLog sampleEnv sampleState [] =
        (some (.ret [] (some .ErrCorrupted), sampleState), []) ∧
      DecodeLog sampleEnv sampleState [33, 65] =
        (some (.ret [] (some .ErrCorrupted), sampleState), [.index 0 2]) ∧
      DecodeBytesLog sampleEnv sampleState 61 [0x41] =
        (some (.ret [] (some .ErrCorrupted), sampleState), []) ∧
      DecodeBytesLog sampleEnv sampleState 61 [0x81, 0x02, 0x41] =
        (some (.ret [] (some .ErrCorrupted), sampleState), [.slice 0 2 3]) ∧
      DecodeBytesLog sampleEnv sampleState 61 [0x80, 0x02, 0x41] =
        (some (.ret (List.replicate 256 0x41) none, sampleState),
          [.slice 0 2 3, .slice 2 3 3, .toInt 256, .repeatCount 256]) ∧
      DecodeBytesLog sampleEnv sampleState 255 [] =
        (some (.ret [] (some .ErrCorrupted), sampleState), []) ∧
      DecodeBytesLog sampleEnv sampleState 2 [1, 0x41] =
        (some (.ret [0x41] none, sampleState), [.index 2 64, .slice 0 0 256]) :=
  ⟨by decide, rfl, by decide,
    ((Decode_DecodeBytes_total sampleEnv (by decide) sampleState).2.2.2.1
      [57, 66, 85, 69, 61]).2,
    by decide, by decide, by decide, by decide, by decide, by decide, by decide⟩

end Filename
